import Mathlib

/-!
# teldrive: decrypted reader, session string and range server

A shallow embedding of

* `internal/reader/decrypted-reader.go` (`NewDecryptedReader`, `nextChunk`, `Read`, `Close`),
* `pkg/services/auth.go` (`ip4toInt`, `pack32BinaryIP4`, `generateTgSession`),
* `pkg/services/file.go` (`GetFileStream`),

together with the properties of these functions that the specification states.
-/

namespace Teldrive

/-! ## Decrypted reader: data model -/

/-- A byte of payload. -/
abbrev Byte := Nat

/-- Go `error` values seen by the reader: `io.EOF` and every other error.  The nil error is
`none : Option GoError`. -/
inductive GoError where
  | EOF
  | other (msg : String)
  deriving DecidableEq, Repr

/-- The fields of `types.Part` that the reader uses. -/
structure Part where
  Size : Int
  Salt : String
  deriving DecidableEq, Repr

/-- Ways in which an embedded function can fail to return: the loop bound of the embedding was
reached, or a nil `io.ReadCloser` was dereferenced (a Go panic). -/
inductive Fault where
  | outOfFuel
  | nilReader
  deriving DecidableEq, Repr

/-- Calls made on sub-streams, in the order they happen: `opened i off count` is a successful
`cipher.DecryptDataSeek` for part `i` with window `(off, count)`, `closed` is `reader.Close()` on
the sub-stream that is currently held. -/
inductive Event where
  | opened (i : Nat) (off count : Int)
  | closed
  deriving DecidableEq, Repr

/-- The collaborators of the reader that are outside the repository's reader package:
`crypt.NewCipher`, `cipher.DecryptDataSeek` (which yields the sub-stream of one part) and the
`Read` and `Close` methods of that sub-stream.  `σ` is the state of a sub-stream. -/
structure Backend (σ : Type) where
  /-- Models `crypt.NewCipher(key, salt)`: the error it returns, if any. -/
  newCipher : String → String → Option GoError
  /-- Models `cipher.DecryptDataSeek(ctx, open, offset, count)` on part number `i`. -/
  decryptDataSeek : Nat → Int → Int → Except GoError σ
  /-- Models `Read(p)` with `len(p) = k` on a sub-stream: the bytes copied into `p`, the error,
  and the sub-stream afterwards. -/
  read : σ → Nat → List Byte × Option GoError × σ
  /-- Models `Close()` on a sub-stream: the error it returns, if any. -/
  close : σ → Option GoError

/-- The struct `decrpytedReader`.  `ctx` and `client` are carried by `Backend`; `trace` is not a
field of the Go struct: it records the calls made on sub-streams so far. -/
structure decrpytedReader (σ : Type) where
  chunks : List Part
  limit : Int
  count : Int
  pos : Nat
  reader : Option σ
  err : Option GoError
  encryptionKey : String
  trace : List Event

variable {σ : Type}

/-- The method `(r *decrpytedReader) Close`. -/
def Close (B : Backend σ) (r : decrpytedReader σ) : Option GoError × decrpytedReader σ :=
  match r.reader with
  | some s => (B.close s, { r with reader := none, trace := r.trace ++ [Event.closed] })
  | none => (none, r)

/-- The method `(r *decrpytedReader) nextChunk`: the returned offset and error, and the reader
afterwards.  All subtractions are between values of which the left one is at least the right
one whenever part sizes are non-negative, so no 64-bit wrap-around is modelled. -/
def nextChunk (B : Backend σ) (r : decrpytedReader σ) (offset : Int) :
    (Int × Option GoError) × decrpytedReader σ :=
  match r.err with
  | some e => ((-1, some e), r)
  | none =>
    if r.pos ≥ r.chunks.length ∨ r.limit ≤ 0 ∨ offset < 0 then
      ((-1, some GoError.EOF), r)
    else
      let chunk := r.chunks.getD r.pos ⟨0, ""⟩
      let count := chunk.Size
      let r1 := { r with pos := r.pos + 1 }
      if offset ≥ count then
        ((offset - count, some GoError.EOF), r1)
      else
        let count1 := count - offset
        let count2 := if r1.limit < count1 then r1.limit else count1
        match Close B r1 with
        | (some e, r2) => ((-1, some e), r2)
        | (none, r2) =>
          match B.newCipher r2.encryptionKey (r2.chunks.getD (r2.pos - 1) ⟨0, ""⟩).Salt with
          | some e => ((-1, some e), r2)
          | none =>
            match B.decryptDataSeek (r2.pos - 1) offset count2 with
            | Except.error e => ((-1, some e), r2)
            | Except.ok s =>
              ((offset, none),
                { r2 with
                  reader := some s
                  count := count2
                  trace := r2.trace ++ [Event.opened (r2.pos - 1) offset count2] })

/-- The loop `for offset >= 0 && err != nil { offset, err = r.nextChunk(offset) }` of
`NewDecryptedReader`, with a bound on the number of iterations. -/
def seekLoop (B : Backend σ) :
    Nat → decrpytedReader σ → Int → Option GoError →
      Except Fault (Option GoError × decrpytedReader σ)
  | 0, r, offset, err =>
    if offset ≥ 0 ∧ err ≠ none then Except.error Fault.outOfFuel else Except.ok (err, r)
  | fuel + 1, r, offset, err =>
    if offset ≥ 0 ∧ err ≠ none then
      seekLoop B fuel (nextChunk B r offset).2 (nextChunk B r offset).1.1
        (nextChunk B r offset).1.2
    else Except.ok (err, r)

/-- The constructor `NewDecryptedReader(ctx, client, offset, limit, chunks, encryptionKey)`.
The inner `Except GoError` is the Go result: `(r, nil)` or `(nil, err)`.  The seek loop is run
with `len(chunks) + 1` iterations allowed. -/
def NewDecryptedReader (B : Backend σ) (offset limit : Int) (chunks : List Part)
    (encryptionKey : String) : Except Fault (Except GoError (decrpytedReader σ)) :=
  let r : decrpytedReader σ :=
    { chunks := chunks, limit := limit, count := 0, pos := 0, reader := none, err := none,
      encryptionKey := encryptionKey, trace := [] }
  match seekLoop B (chunks.length + 1) r offset (some GoError.EOF) with
  | Except.error f => Except.error f
  | Except.ok (none, r1) => Except.ok (Except.ok { r1 with err := none })
  | Except.ok (some GoError.EOF, r1) => Except.ok (Except.ok { r1 with err := some GoError.EOF })
  | Except.ok (some e, _) => Except.ok (Except.error e)

/-- The loop `for r.count <= 0 { off, err := r.nextChunk(0); if off < 0 { ... return } }` of
`Read`, with a bound on the number of iterations.  The first component is `some err` when the
loop returns `(0, err)` from `Read` (after `r.err = err`), and `none` when the loop is left
with `r.count > 0`. -/
def readLoop (B : Backend σ) :
    Nat → decrpytedReader σ → Except Fault (Option (Option GoError) × decrpytedReader σ)
  | 0, r => if r.count ≤ 0 then Except.error Fault.outOfFuel else Except.ok (none, r)
  | fuel + 1, r =>
    if r.count ≤ 0 then
      if (nextChunk B r 0).1.1 < 0 then
        Except.ok (some (nextChunk B r 0).1.2,
          { (nextChunk B r 0).2 with err := (nextChunk B r 0).1.2 })
      else readLoop B fuel (nextChunk B r 0).2
    else Except.ok (none, r)

/-- The method `(r *decrpytedReader) Read(p)` with `len(p) = k`: the bytes copied into `p`
(their number is the `n` that Go returns), the error, and the reader afterwards.  The loop is
run with `len(chunks) + 1` iterations allowed. -/
def Read (B : Backend σ) (r : decrpytedReader σ) (k : Nat) :
    Except Fault ((List Byte × Option GoError) × decrpytedReader σ) :=
  match r.err with
  | some e => Except.ok (([], some e), r)
  | none =>
    if r.limit ≤ 0 then
      Except.ok (([], some GoError.EOF), { r with err := some GoError.EOF })
    else
      match readLoop B (r.chunks.length + 1) r with
      | Except.error f => Except.error f
      | Except.ok (some err, r1) => Except.ok (([], err), r1)
      | Except.ok (none, r1) =>
        match r1.reader with
        | none => Except.error Fault.nilReader
        | some s =>
          let res := B.read s k
          let r2 : decrpytedReader σ := { r1 with reader := some res.2.2 }
          if res.2.1 = none ∨ res.2.1 = some GoError.EOF then
            let n : Int := (res.1.length : Int)
            let r3 : decrpytedReader σ := { r2 with count := r2.count - n, limit := r2.limit - n }
            let err : Option GoError := if (0 : Int) < r3.limit then none else res.2.1
            Except.ok ((res.1, err), { r3 with err := err })
          else
            Except.ok ((res.1, res.2.1), { r2 with err := res.2.1 })

/-- Reads with buffers of the given lengths, one `Read` per buffer, until the first `Read`
that returns an error or until the buffers are used up: the concatenation of all bytes
returned, the error of the last `Read` made, and the reader afterwards. -/
def readAll (B : Backend σ) :
    List Nat → decrpytedReader σ →
      Except Fault (List Byte × Option GoError × decrpytedReader σ)
  | [], r => Except.ok ([], none, r)
  | k :: ks, r =>
    match Read B r k with
    | Except.error f => Except.error f
    | Except.ok ((bs, some e), r1) => Except.ok (bs, some e, r1)
    | Except.ok ((bs, none), r1) =>
      match readAll B ks r1 with
      | Except.error f => Except.error f
      | Except.ok (rest, e, r2) => Except.ok (bs ++ rest, e, r2)

/-- A sub-stream backend over given plaintexts, one per part: a sub-stream is the list of bytes
it has yet to deliver, opening part `i` with window `(off, count)` gives bytes
`[off, off + count)` of plaintext `i`, a read with a buffer of length `k` delivers the next
`min k chunk` bytes (at least one when `k > 0`) and reports `io.EOF` together with the last
bytes when `eofWithData` is set, and only on a later read otherwise. -/
def sliceBackend (plain : List (List Byte)) (chunk : Nat) (eofWithData : Bool) :
    Backend (List Byte) where
  newCipher := fun _ _ => none
  decryptDataSeek := fun i off count =>
    Except.ok (((plain.getD i []).drop off.toNat).take count.toNat)
  read := fun s k =>
    let n := min k (max chunk 1)
    if s = [] then ([], some GoError.EOF, [])
    else if s.drop n = [] ∧ eofWithData = true then (s.take n, some GoError.EOF, [])
    else (s.take n, none, s.drop n)
  close := fun _ => none

/-- The parts `[40, 30, 30]`-style list for given plaintexts: part `i` has the size of
plaintext `i`. -/
def partsOf (plain : List (List Byte)) : List Part :=
  plain.map fun p => ⟨(p.length : Int), ""⟩

/-- The bytes a whole run delivers: build the reader, then read with the given buffers. -/
def runReader (B : Backend σ) (offset limit : Int) (chunks : List Part) (key : String)
    (bufs : List Nat) : Except Fault (Except GoError (List Byte × Option GoError × List Event)) :=
  match NewDecryptedReader B offset limit chunks key with
  | Except.error f => Except.error f
  | Except.ok (Except.error e) => Except.ok (Except.error e)
  | Except.ok (Except.ok r) =>
    match readAll B bufs r with
    | Except.error f => Except.error f
    | Except.ok (bs, e, r1) => Except.ok (Except.ok (bs, e, r1.trace))

/-! ## Decrypted reader: well-behaved backends and the state invariant -/

/-- The backend is fault-free and its sub-streams deliver the windows of the plaintexts:
cipher construction, opening and closing do not fail; the sub-stream opened for part `i` with
window `(off, count)` inside the part holds exactly the bytes `[off, off + count)` of plaintext
`i` (`rem s` is what sub-stream `s` has yet to deliver); and each read with a non-empty buffer
on a sub-stream that has bytes left delivers at least one of them, in order, with a nil error or,
only together with the last byte, with `io.EOF`. -/
structure Delivers (B : Backend σ) (rem : σ → List Byte) (plain : List (List Byte)) : Prop where
  cipher : ∀ key salt, B.newCipher key salt = none
  opens : ∀ (i : Nat) (off count : Int), i < plain.length → 0 ≤ off → 0 < count →
    off + count ≤ ((plain.getD i []).length : Int) →
    ∃ s, B.decryptDataSeek i off count = Except.ok s ∧
      rem s = ((plain.getD i []).drop off.toNat).take count.toNat
  reads : ∀ (s : σ) (k : Nat), 0 < k → rem s ≠ [] →
    (B.read s k).1 ≠ [] ∧ (B.read s k).1 ++ rem (B.read s k).2.2 = rem s ∧
      ((B.read s k).2.1 = none ∨
        ((B.read s k).2.1 = some GoError.EOF ∧ rem (B.read s k).2.2 = []))
  closes : ∀ s, B.close s = none

/-- Each part's `Size` is the length of its plaintext. -/
def SizesMatch (chunks : List Part) (plain : List (List Byte)) : Prop :=
  chunks.map Part.Size = plain.map fun p => (p.length : Int)

/-- The `closed` event that `Close` records: one if a sub-stream is held, none otherwise. -/
def closeEvents (r : decrpytedReader σ) : List Event :=
  match r.reader with
  | some _ => [Event.closed]
  | none => []

/-- A window of one part: bytes `[off, off + count)` of part number `i`. -/
structure Window where
  i : Nat
  off : Int
  count : Int
  deriving DecidableEq, Repr

/-- The windows of the sub-streams opened in a trace, in order. -/
def openedWindows : List Event → List Window
  | [] => []
  | Event.opened i off count :: es => ⟨i, off, count⟩ :: openedWindows es
  | Event.closed :: es => openedWindows es

/-- The windows that successive calls of `nextChunk` open when they walk parts of the given
sizes from part number `i` on: first with the offset that is left to skip, then with offset
`0`, and with `lim` bytes left to deliver. -/
def planWindows : Nat → List Int → Int → Int → List Window
  | _, [], _, _ => []
  | i, s :: rest, off, lim =>
    if lim ≤ 0 then []
    else if off ≥ s then planWindows (i + 1) rest (off - s) lim
    else ⟨i, off, min (s - off) lim⟩ :: planWindows (i + 1) rest 0 (lim - min (s - off) lim)

/-- The state of a reader that has not failed: its parts are those of the plaintexts, the
sub-stream it holds has `count` bytes left, the bytes still to deliver are `todo`, and the
windows opened so far followed by those still to open are `W`. -/
structure Inv (rem : σ → List Byte) (plain : List (List Byte)) (W : List Window)
    (r : decrpytedReader σ) (todo : List Byte) : Prop where
  err : r.err = none
  sizes : SizesMatch r.chunks plain
  pos : r.pos ≤ plain.length
  cnt0 : 0 ≤ r.count
  cntl : r.count ≤ r.limit
  cur : ∃ c : List Byte, (c.length : Int) = r.count ∧
    (0 < r.count → ∃ s, r.reader = some s ∧ rem s = c) ∧
    todo = c ++ ((plain.drop r.pos).flatten).take (r.limit - r.count).toNat
  wins : openedWindows r.trace ++
    planWindows r.pos ((plain.drop r.pos).map fun p => (p.length : Int)) 0
      (r.limit - r.count) = W

/-- The state of a reader that has reached the end: `io.EOF` is recorded and every window has
been opened. -/
structure Done (W : List Window) (r : decrpytedReader σ) : Prop where
  err : r.err = some GoError.EOF
  wins : openedWindows r.trace = W

/-! ## Chunk locator of the specification -/

/-- The sum of the sizes of the parts before part number `i`: the `acc` of the specification
when the walk reaches part `i`. -/
def accAt (sizes : List Int) (i : Nat) : Int :=
  (sizes.take i).sum

/-- The chunk locator as the specification describes it, for the range `[start, end_]`, walking
parts from number `i` on with `acc` the sum of the sizes before: parts with `acc + s ≤ start`
lie before the head; the first part with `acc + s > start` is the head, entered at in-part
offset `start - acc`; every later part is entered at offset `0`; a part that the range leaves
is read to its end; the tail, the part in which `end_` lies, is read up to in-part position
`end_ - acc` inclusive; parts after the tail are not emitted. -/
def chunkLocator (start end_ : Int) : Nat → Int → List Int → List Window
  | _, _, [] => []
  | i, acc, s :: rest =>
    if acc + s ≤ start then chunkLocator start end_ (i + 1) (acc + s) rest
    else if end_ < acc then []
    else
      let off := if acc ≤ start then start - acc else 0
      let last := if end_ < acc + s then end_ - acc else s - 1
      ⟨i, off, last - off + 1⟩ :: chunkLocator start end_ (i + 1) (acc + s) rest

/-! ## Decrypted reader: discipline of sub-stream calls -/

/-- Scans a trace from a point where a sub-stream is held (`true`) or not (`false`): the result
is `none` if a sub-stream is opened while another is still held, or if `closed` occurs while
none is held; otherwise it tells whether a sub-stream is held after the trace. -/
def heldFrom (b : Bool) : List Event → Option Bool
  | [] => some b
  | Event.opened _ _ _ :: es => if b = true then none else heldFrom true es
  | Event.closed :: es => if b = true then heldFrom false es else none

/-- Scans a whole trace, which starts with no sub-stream held. -/
def held (tr : List Event) : Option Bool :=
  heldFrom false tr

/-- What every reader state satisfies, on any backend: the trace is disciplined and agrees with
the `reader` field, a positive `count` comes with a sub-stream, and `pos` is within the parts. -/
structure Sound (r : decrpytedReader σ) : Prop where
  trace : held r.trace = some r.reader.isSome
  reader : 0 < r.count → r.reader.isSome = true
  pos : r.pos ≤ r.chunks.length

/-- Reads with buffers of the given lengths, one `Read` per buffer, whatever the `Read`s
return: the reader afterwards. -/
def readMany (B : Backend σ) : List Nat → decrpytedReader σ → Except Fault (decrpytedReader σ)
  | [], r => Except.ok r
  | k :: ks, r =>
    match Read B r k with
    | Except.error f => Except.error f
    | Except.ok (_, r1) => readMany B ks r1

/-- The number of sub-streams that are open after a trace: those opened minus those closed. -/
def openCount : List Event → Int
  | [] => 0
  | Event.opened _ _ _ :: es => openCount es + 1
  | Event.closed :: es => openCount es - 1

/-! ## Session string (`pkg/services/auth.go`) -/

/-- The value of a decimal digit, if the character is one. -/
def digitValue (c : Char) : Option Nat :=
  if '0' ≤ c ∧ c ≤ '9' then some (c.toNat - '0'.toNat) else none

/-- Reads dotted decimal text from the left: `acc` holds the octets read so far, `cur` the
octet being read, if any digit of it has been seen.  A character that is neither a digit nor a
dot, an empty octet, or an octet above 255 gives `none`. -/
def parseDotted : List Char → List Nat → Option Nat → Option (List Nat)
  | [], acc, some n => some (acc ++ [n])
  | [], _, none => none
  | c :: cs, acc, cur =>
    if c = '.' then
      match cur with
      | some n => parseDotted cs (acc ++ [n]) none
      | none => none
    else
      match digitValue c with
      | none => none
      | some d =>
        if cur.getD 0 * 10 + d ≤ 255 then parseDotted cs acc (some (cur.getD 0 * 10 + d))
        else none

/-- Models `net.ParseIP(s).To4()` for dotted decimal IPv4 text: the four octets, or `none` (the
nil IP) for text that is not four dotted decimal octets, such as the empty string. -/
def parseIP4 (s : String) : Option (List Nat) :=
  match parseDotted s.toList [] none with
  | some [a, b, c, d] => some [a, b, c, d]
  | _ => none

/-- The function `ip4toInt`: `big.NewInt(0).SetBytes(ip.To4()).Int64()`, the big-endian value
of the octets, and `0` for the nil IP. -/
def ip4toInt (IPv4Address : Option (List Nat)) : Int :=
  match IPv4Address with
  | some bs => ((bs.foldl (fun v b => v * 256 + b) 0 : Nat) : Int)
  | none => 0

/-- Models `binary.Write(buf, binary.BigEndian, uint32(v))`: the four bytes of `v` modulo
`2 ^ 32`, most significant first. -/
def putUint32BE (v : Int) : List Byte :=
  let u := (v % 4294967296).toNat
  [u / 16777216 % 256, u / 65536 % 256, u / 256 % 256, u % 256]

/-- The function `pack32BinaryIP4`. -/
def pack32BinaryIP4 (ip4Address : String) : List Byte :=
  putUint32BE (ip4toInt (parseIP4 ip4Address))

/-- The map `dcMaps` of `generateTgSession`; a key that is absent gives the empty string. -/
def dcMaps (dcID : Int) : String :=
  if dcID = 1 then "149.154.175.53"
  else if dcID = 2 then "149.154.167.51"
  else if dcID = 3 then "149.154.175.100"
  else if dcID = 4 then "149.154.167.91"
  else if dcID = 5 then "91.108.56.130"
  else ""

/-- The alphabet of `base64.URLEncoding`. -/
def encodeURL : List Char :=
  "ABCDEFGHIJKLMNOPQRSTUVWXYZabcdefghijklmnopqrstuvwxyz0123456789-_".toList

/-- The character of a 6-bit value in the alphabet of `base64.URLEncoding`. -/
def base64Char (v : Nat) : Char :=
  encodeURL.getD (v % 64) 'A'

/-- Models `base64.URLEncoding.EncodeToString`: three bytes give four characters, and a last
group of one or two bytes is padded with `=`. -/
def base64URLEncode : List Byte → List Char
  | [] => []
  | [a] => [base64Char (a / 4), base64Char (a % 4 * 16), '=', '=']
  | [a, b] => [base64Char (a / 4), base64Char (a % 4 * 16 + b / 16), base64Char (b % 16 * 4), '=']
  | a :: b :: c :: rest =>
    base64Char (a / 4) :: base64Char (a % 4 * 16 + b / 16) :: base64Char (b % 16 * 4 + c / 64) ::
      base64Char (c % 64) :: base64URLEncode rest

/-- The function `generateTgSession(dcID, authKey, port)`; `byte(dcID)` and `uint16(port)` keep
the low 8 and 16 bits. -/
def generateTgSession (dcID : Int) (authKey : List Byte) (port : Int) : String :=
  let dcIDByte : Byte := (dcID % 256).toNat
  let serverAddressBytes := pack32BinaryIP4 (dcMaps dcID)
  let portByte : List Byte := [(port % 65536).toNat / 256, (port % 65536).toNat % 256]
  let packet := [dcIDByte] ++ serverAddressBytes ++ portByte ++ authKey
  "1" ++ String.mk (base64URLEncode packet)

/-- The payload of the session string as the specification lays it out: the data centre id as
one byte, the four octets of its address, the port as two bytes big-endian, the auth key. -/
def sessionPayload (dcID : Int) (authKey : List Byte) (port : Int) : List Byte :=
  [dcID.toNat] ++
    (if dcID = 1 then [149, 154, 175, 53]
      else if dcID = 2 then [149, 154, 167, 51]
      else if dcID = 3 then [149, 154, 175, 100]
      else if dcID = 4 then [149, 154, 167, 91]
      else [91, 108, 56, 130]) ++
    [port.toNat / 256, port.toNat % 256] ++ authKey

/-! ## Range server (`FileService.GetFileStream`, `pkg/services/file.go`) -/

/-- The fields of `schemas.FileOutFull` that the handler uses; `UpdatedAt` is kept as the
text that `file.UpdatedAt.UTC().Format(http.TimeFormat)` gives. -/
structure FileOutFull where
  ID : String
  Name : String
  MimeType : String
  Size : Int
  UpdatedAt : String
  ChannelID : Int
  Encrypted : Bool
  deriving DecidableEq, Repr

/-- The session that `getSessionByHash` resolves. -/
structure UserSession where
  UserId : Int
  Session : String
  deriving DecidableEq, Repr

/-- The struct `types.AppError`: an error text and an HTTP status code (0 when unset). -/
structure AppError where
  Error : String
  Code : Nat
  deriving DecidableEq, Repr

/-- One range of `http_range.Parse`. -/
structure Range where
  Start : Int
  End : Int
  deriving DecidableEq, Repr

/-- The errors of `http_range.Parse`: `http_range.ErrNoOverlap` and every other error. -/
inductive RangeError where
  | ErrNoOverlap
  | other (msg : String)
  deriving DecidableEq, Repr

/-- The outcome of `fs.db.Where("id = ?", id).First(&file)`, the row already mapped by
`mapper.ToFileOutFull`. -/
inductive DBResult where
  | found (file : FileOutFull)
  | recordNotFound
  | failed (msg : String)
  deriving DecidableEq, Repr

/-- The parts of the request that the handler reads. -/
structure Request where
  fileID : String
  hash : String
  d : String
  rangeHeader : String
  method : String
  deriving DecidableEq, Repr

/-- The fields of the telegram configuration that the handler reads. -/
structure StreamConfig where
  DisableStreamBots : Bool
  BgBotsLimit : Int
  EncryptionKey : String
  deriving DecidableEq, Repr

/-- The collaborators of the handler that are not under `src/`, as functions of their
arguments: session and metadata stores, the range parser, text helpers, the bot token store, the
worker pool, the part resolver, the chunk selection and the reader constructors (`true` when
the constructor returns a reader, `false` when it returns an error and a nil reader). -/
structure Env where
  getSessionByHash : String → Except String UserSession
  cacheGet : String → Except String FileOutFull
  dbFirst : String → DBResult
  errNotFound : String
  rangeParse : String → Int → Except RangeError (List Range)
  errNoOverlap : String
  md5FromString : String → String
  formatMediaType : String → String → String
  getBotsToken : Int → Int → Except String (List String)
  userWorker : String → Int → Except String Nat
  workerNext : List String → Int → Except String (Nat × Int)
  getParts : Nat → FileOutFull → String → Except String (List Part)
  rangedParts : List Part → Int → Int → List Part
  newDecryptedReader : List Part → Int → String → Bool
  newLinearReader : List Part → Int → Bool

/-- What the handler does, call by call: calls on the response writer (`http.Error`, setting a
header, `WriteHeader`), calls on collaborators, the copy of the body, a `Close` of the reader,
and a Go panic, which ends the handler.  Logging is left out. -/
inductive Effect where
  | httpError (msg : String) (code : Nat)
  | header (key value : String)
  | writeHeader (code : Nat)
  | getSessionByHash (hash : String)
  | cacheGet (key : String)
  | getFileByID (id : String)
  | cacheSet (key : String)
  | getBotsToken (userId channelId : Int)
  | authClient (session : String)
  | userWorker (userId : Int)
  | workerSet (tokens : List String) (channelId : Int)
  | workerNext (channelId : Int)
  | getParts (client : Nat) (channelUser : String)
  | rangedParts (start end_ : Int)
  | newDecryptedReader (contentLength : Int)
  | newLinearReader (contentLength : Int)
  | copyN (readerIsNil : Bool) (n : Int)
  | closeReader
  | panic (msg : String)
  deriving DecidableEq, Repr

/-- Arithmetic of `int64`: the value wrapped into `[-2^63, 2^63)`. -/
def wrap64 (x : Int) : Int :=
  (x + 9223372036854775808) % 18446744073709551616 - 9223372036854775808

/-- Models `strconv.FormatInt(i, 10)` and the verb `%d`. -/
def formatInt (i : Int) : String :=
  toString i

/-- The method `FileService.GetFileByID`. -/
def GetFileByID (env : Env) (id : String) : Except AppError FileOutFull :=
  match env.dbFirst id with
  | DBResult.found file => Except.ok file
  | DBResult.recordNotFound => Except.error ⟨env.errNotFound, 404⟩
  | DBResult.failed msg => Except.error ⟨msg, 0⟩

/-- Lines 516 to 533 of `GetFileStream`: for a method other than `HEAD`, resolve the parts,
select those of the range, build the reader and copy `contentLength` bytes.  The error of the
reader constructor is dropped (`lr, _ = ...`); copying from a nil reader panics as soon as a
byte is asked of it. -/
def copyStage (cnf : StreamConfig) (env : Env) (req : Request) (file : FileOutFull)
    (client : Nat) (channelUser : String) (start end_ contentLength : Int) : List Effect :=
  if req.method ≠ "HEAD" then
    match env.getParts client file channelUser with
    | Except.error err => [Effect.getParts client channelUser, Effect.httpError err 500]
    | Except.ok parts =>
      let parts1 := env.rangedParts parts start end_
      let built : Bool :=
        if file.Encrypted = true then env.newDecryptedReader parts1 contentLength cnf.EncryptionKey
        else env.newLinearReader parts1 contentLength
      [Effect.getParts client channelUser, Effect.rangedParts start end_,
        if file.Encrypted = true then Effect.newDecryptedReader contentLength
        else Effect.newLinearReader contentLength,
        Effect.copyN (!built) contentLength] ++
        (if built = false ∧ 0 < contentLength then [Effect.panic "nil reader"] else [])
  else []

/-- Lines 468 to 514 of `GetFileStream`, followed by the copy: look up the bot tokens and
acquire a worker, the user-session worker or the next bot of the channel. -/
def workerStage (cnf : StreamConfig) (env : Env) (req : Request) (session : UserSession)
    (file : FileOutFull) (start end_ contentLength : Int) : List Effect :=
  match env.getBotsToken session.UserId file.ChannelID with
  | Except.error err =>
    [Effect.getBotsToken session.UserId file.ChannelID, Effect.httpError err 500]
  | Except.ok tokens =>
    Effect.getBotsToken session.UserId file.ChannelID ::
    if cnf.DisableStreamBots = true ∨ tokens.length = 0 then
      match env.userWorker session.Session session.UserId with
      | Except.error err =>
        [Effect.authClient session.Session, Effect.userWorker session.UserId,
          Effect.httpError err 500]
      | Except.ok client =>
        [Effect.authClient session.Session, Effect.userWorker session.UserId] ++
          copyStage cnf env req file client (formatInt session.UserId) start end_ contentLength
    else
      let limit : Int := min (tokens.length : Int) cnf.BgBotsLimit
      if limit < 0 then [Effect.panic "slice bounds out of range"]
      else
        match env.workerNext (tokens.take limit.toNat) file.ChannelID with
        | Except.error err =>
          [Effect.workerSet (tokens.take limit.toNat) file.ChannelID,
            Effect.workerNext file.ChannelID, Effect.httpError err 500]
        | Except.ok (client, index) =>
          [Effect.workerSet (tokens.take limit.toNat) file.ChannelID,
            Effect.workerNext file.ChannelID] ++
          if index < 0 ∨ (tokens.length : Int) ≤ index then
            [Effect.panic "index out of range"]
          else
            copyStage cnf env req file client
              (String.mk ((tokens.getD index.toNat "").toList.takeWhile fun c => c ≠ ':'))
              start end_ contentLength

/-- Lines 446 to 466 of `GetFileStream`, followed by the worker stage: the content length and
the response headers. -/
def headerStage (cnf : StreamConfig) (env : Env) (req : Request) (session : UserSession)
    (file : FileOutFull) (start end_ : Int) : List Effect :=
  let contentLength := wrap64 (wrap64 (end_ - start) + 1)
  let mimeType := if file.MimeType = "" then "application/octet-stream" else file.MimeType
  let disposition := if req.d = "1" then "attachment" else "inline"
  [Effect.header "Content-Type" mimeType,
    Effect.header "Content-Length" (formatInt contentLength),
    Effect.header "E-Tag" ("\"" ++ env.md5FromString (file.ID ++ formatInt file.Size) ++ "\""),
    Effect.header "Last-Modified" file.UpdatedAt,
    Effect.header "Content-Disposition" (env.formatMediaType disposition file.Name)] ++
    workerStage cnf env req session file start end_ contentLength

/-- Lines 414 to 444 of `GetFileStream`, followed by the header stage: `Accept-Ranges` and the
choice of `start` and `end` from the `Range` header.  Indexing `ranges[0]` of an empty list
panics. -/
def rangeStage (cnf : StreamConfig) (env : Env) (req : Request) (session : UserSession)
    (file : FileOutFull) : List Effect :=
  Effect.header "Accept-Ranges" "bytes" ::
  if req.rangeHeader = "" then
    Effect.writeHeader 200 :: headerStage cnf env req session file 0 (wrap64 (file.Size - 1))
  else
    match env.rangeParse req.rangeHeader file.Size with
    | Except.error RangeError.ErrNoOverlap =>
      [Effect.header "Content-Range" ("bytes */" ++ formatInt file.Size),
        Effect.httpError env.errNoOverlap 416]
    | Except.error (RangeError.other msg) => [Effect.httpError msg 400]
    | Except.ok ranges =>
      if ranges.length > 1 then [Effect.httpError "multiple ranges are not supported" 416]
      else
        match ranges with
        | [] => [Effect.panic "index out of range"]
        | r0 :: _ =>
          Effect.header "Content-Range"
              ("bytes " ++ formatInt r0.Start ++ "-" ++ formatInt r0.End ++ "/" ++
                formatInt file.Size) ::
            Effect.writeHeader 206 :: headerStage cnf env req session file r0.Start r0.End

/-- The method `FileService.GetFileStream`: everything the handler does, in order. -/
def GetFileStream (cnf : StreamConfig) (env : Env) (req : Request) : List Effect :=
  if req.hash = "" then [Effect.httpError "missing hash param" 400]
  else
    match env.getSessionByHash req.hash with
    | Except.error _ =>
      [Effect.getSessionByHash req.hash, Effect.httpError "invalid hash" 400]
    | Except.ok session =>
      Effect.getSessionByHash req.hash :: Effect.cacheGet ("files:" ++ req.fileID) ::
      match env.cacheGet ("files:" ++ req.fileID) with
      | Except.ok file => rangeStage cnf env req session file
      | Except.error _ =>
        Effect.getFileByID req.fileID ::
        match GetFileByID env req.fileID with
        | Except.error appErr => [Effect.httpError appErr.Error 400]
        | Except.ok file =>
          Effect.cacheSet ("files:" ++ req.fileID) :: rangeStage cnf env req session file

/-- The status codes the handler writes, in order: those of `WriteHeader` and of
`http.Error`. -/
def statusCalls : List Effect → List Nat
  | [] => []
  | Effect.writeHeader code :: es => code :: statusCalls es
  | Effect.httpError _ code :: es => code :: statusCalls es
  | _ :: es => statusCalls es

/-- The file descriptor the handler works with: that of the cache on a hit, that of the
metadata store on a miss. -/
def lookupFile (env : Env) (fileID : String) : Except AppError FileOutFull :=
  match env.cacheGet ("files:" ++ fileID) with
  | Except.ok file => Except.ok file
  | Except.error _ => GetFileByID env fileID

/-! ## A scenario for the range server: the file of size 100 in three parts -/

/-- The file of the scenarios of the specification: size 100, not encrypted. -/
def scenarioFile : FileOutFull :=
  { ID := "f1", Name := "a.bin", MimeType := "", Size := 100,
    UpdatedAt := "Mon, 02 Jan 2006 15:04:05 GMT", ChannelID := 7, Encrypted := false }

/-- Collaborators for the scenarios: the hash `h1` resolves to user 1, the cache is empty, the
metadata store knows only the file `f1`, the channel has three bot tokens, the file has parts of
sizes 40, 30 and 30, and the range parser knows the three `Range` headers of the scenarios. -/
def scenarioEnv : Env :=
  { getSessionByHash := fun h =>
      if h = "h1" then Except.ok ⟨1, "s1"⟩ else Except.error "record not found"
    cacheGet := fun _ => Except.error "cache miss"
    dbFirst := fun id => if id = "f1" then DBResult.found scenarioFile else DBResult.recordNotFound
    errNotFound := "record not found"
    rangeParse := fun h _ =>
      if h = "bytes=50-59" then Except.ok [⟨50, 59⟩]
      else if h = "bytes=200-300" then Except.error RangeError.ErrNoOverlap
      else if h = "bytes=0-10,20-30" then Except.ok [⟨0, 10⟩, ⟨20, 30⟩]
      else Except.error (RangeError.other "invalid range")
    errNoOverlap := "invalid range: failed to overlap"
    md5FromString := fun s => "md5:" ++ s
    formatMediaType := fun d n => d ++ "; filename=" ++ n
    getBotsToken := fun _ _ => Except.ok ["11:aa", "22:bb", "33:cc"]
    userWorker := fun _ _ => Except.ok 0
    workerNext := fun _ _ => Except.ok (1, 0)
    getParts := fun _ _ _ => Except.ok [⟨40, ""⟩, ⟨30, ""⟩, ⟨30, ""⟩]
    rangedParts := fun ps _ _ => ps
    newDecryptedReader := fun _ _ _ => true
    newLinearReader := fun _ _ => true }

/-- Configuration for the scenarios: stream bots enabled, at most five per channel. -/
def scenarioCnf : StreamConfig :=
  { DisableStreamBots := false, BgBotsLimit := 5, EncryptionKey := "key" }

/-- A request of the scenarios, without the query parameter `d`. -/
def scenarioRequest (fileID hash method rangeHeader : String) : Request :=
  { fileID := fileID, hash := hash, d := "", rangeHeader := rangeHeader, method := method }

/-- The calls the handler makes after it has constructed the reader, if it constructs one. -/
def afterReader : List Effect → Option (List Effect)
  | [] => none
  | Effect.newDecryptedReader _ :: es => some es
  | Effect.newLinearReader _ :: es => some es
  | _ :: es => afterReader es

/-- After the reader is constructed the handler only copies from it: the calls that follow are
the copy alone, or the copy and the panic of a nil reader. -/
def OnlyCopies (tr : List Effect) : Prop :=
  ∀ rest, afterReader tr = some rest →
    ∃ b n, rest = [Effect.copyN b n] ∨ rest = [Effect.copyN b n, Effect.panic "nil reader"]

/-! ## Range server: views of a trace and further scenarios -/

/-- The headers set on the response, in order: those of `c.Header` and `w.Header().Set`, and
the two headers that `http.Error` sets itself before it writes the status,
`Content-Type: text/plain; charset=utf-8` and `X-Content-Type-Options: nosniff`. -/
def headersOf : List Effect → List (String × String)
  | [] => []
  | Effect.header k v :: es => (k, v) :: headersOf es
  | Effect.httpError _ _ :: es =>
    ("Content-Type", "text/plain; charset=utf-8") :: ("X-Content-Type-Options", "nosniff") ::
      headersOf es
  | _ :: es => headersOf es

/-- The calls on the worker pool in a trace, in order: `UserWorker`, `Set` and `Next`. -/
def workerCalls : List Effect → List Effect
  | [] => []
  | Effect.userWorker uid :: es => Effect.userWorker uid :: workerCalls es
  | Effect.workerSet toks ch :: es => Effect.workerSet toks ch :: workerCalls es
  | Effect.workerNext ch :: es => Effect.workerNext ch :: workerCalls es
  | _ :: es => workerCalls es

/-- The calls that resolve parts, build the reader and copy the body, in order. -/
def bodyCalls : List Effect → List Effect
  | [] => []
  | Effect.getParts c u :: es => Effect.getParts c u :: bodyCalls es
  | Effect.rangedParts s e :: es => Effect.rangedParts s e :: bodyCalls es
  | Effect.newDecryptedReader n :: es => Effect.newDecryptedReader n :: bodyCalls es
  | Effect.newLinearReader n :: es => Effect.newLinearReader n :: bodyCalls es
  | Effect.copyN b n :: es => Effect.copyN b n :: bodyCalls es
  | _ :: es => bodyCalls es

/-- The same request with another method. -/
def withMethod (req : Request) (method : String) : Request :=
  { fileID := req.fileID, hash := req.hash, d := req.d, rangeHeader := req.rangeHeader,
    method := method }

/-- What a `GET` does beyond a `HEAD`: either calls that set no header and write no status,
or, when part resolution fails, the part lookup followed by `http.Error(..., 500)`. -/
def GetOnly (extra : List Effect) : Prop :=
  (headersOf extra = [] ∧ statusCalls extra = []) ∨
    ∃ c u e, extra = [Effect.getParts c u, Effect.httpError e 500]

/-- The scenario collaborators, with a part resolver that fails. -/
def scenarioEnvNoParts : Env :=
  { scenarioEnv with getParts := fun _ _ _ => Except.error "message not found" }

/-- The file of the scenarios, stored encrypted. -/
def scenarioFileEncrypted : FileOutFull :=
  { scenarioFile with Encrypted := true }

/-- The scenario collaborators for the encrypted file, with a constructor of the decrypted
reader that returns an error and a nil reader. -/
def scenarioEnvNoReader : Env :=
  { scenarioEnv with
    dbFirst := fun id =>
      if id = "f1" then DBResult.found scenarioFileEncrypted else DBResult.recordNotFound
    newDecryptedReader := fun _ _ _ => false }

/-- A sub-stream backend on which `crypt.NewCipher` fails. -/
def noCipherBackend (plain : List (List Byte)) : Backend (List Byte) :=
  { sliceBackend plain 1 false with newCipher := fun _ _ => some (GoError.other "bad key") }

/-- Every `Set` on the worker pool in a trace is given at most `limit` tokens. -/
def SetBounded (limit : Int) (tr : List Effect) : Prop :=
  ∀ toks ch, Effect.workerSet toks ch ∈ tr → (toks.length : Int) ≤ limit

/-! ## Decrypted reader: lemmas -/

theorem getD_size {chunks : List Part} {plain : List (List Byte)} (h : SizesMatch chunks plain)
    (i : Nat) (hi : i < plain.length) :
    (chunks.getD i ⟨0, ""⟩).Size = ((plain.getD i []).length : Int) := by
  have hl : chunks.length = plain.length := by
    have := congrArg List.length h
    simpa using this
  have h1 : (chunks.map Part.Size)[i]? = (plain.map fun p => (p.length : Int))[i]? := by rw [h]
  rw [List.getD_eq_getElem?_getD, List.getD_eq_getElem?_getD]
  simp only [List.getElem?_map] at h1
  rw [List.getElem?_eq_getElem (by omega)] at h1 ⊢
  rw [List.getElem?_eq_getElem hi] at h1 ⊢
  simpa using h1

theorem sizesMatch_length {chunks : List Part} {plain : List (List Byte)}
    (h : SizesMatch chunks plain) : chunks.length = plain.length := by
  have := congrArg List.length h
  simpa using this

theorem nextChunk_eof (B : Backend σ) (r : decrpytedReader σ) (offset : Int)
    (he : r.err = none) (h : r.pos ≥ r.chunks.length ∨ r.limit ≤ 0 ∨ offset < 0) :
    nextChunk B r offset = ((-1, some GoError.EOF), r) := by
  simp only [nextChunk, he]
  rw [if_pos h]

theorem nextChunk_skip (B : Backend σ) (r : decrpytedReader σ) (offset : Int)
    (he : r.err = none) (hp : r.pos < r.chunks.length) (hl : 0 < r.limit) (ho : 0 ≤ offset)
    (hs : (r.chunks.getD r.pos ⟨0, ""⟩).Size ≤ offset) :
    nextChunk B r offset =
      ((offset - (r.chunks.getD r.pos ⟨0, ""⟩).Size, some GoError.EOF),
        { r with pos := r.pos + 1 }) := by
  simp only [nextChunk, he]
  rw [if_neg (by omega)]
  rw [if_pos (by simpa using hs)]

theorem nextChunk_open (B : Backend σ) (r : decrpytedReader σ) (offset : Int)
    (he : r.err = none) (hp : r.pos < r.chunks.length) (hl : 0 < r.limit) (ho : 0 ≤ offset)
    (hs : offset < (r.chunks.getD r.pos ⟨0, ""⟩).Size)
    (hclose : ∀ s, B.close s = none) (hcipher : ∀ key salt, B.newCipher key salt = none)
    (s : σ)
    (hopen : B.decryptDataSeek r.pos offset
      (min ((r.chunks.getD r.pos ⟨0, ""⟩).Size - offset) r.limit) = Except.ok s) :
    nextChunk B r offset =
      ((offset, none),
        { r with
          pos := r.pos + 1
          reader := some s
          count := min ((r.chunks.getD r.pos ⟨0, ""⟩).Size - offset) r.limit
          trace := r.trace ++ closeEvents r ++
            [Event.opened r.pos offset
              (min ((r.chunks.getD r.pos ⟨0, ""⟩).Size - offset) r.limit)] }) := by
  have hmin : (if r.limit < (r.chunks.getD r.pos ⟨0, ""⟩).Size - offset then r.limit
      else (r.chunks.getD r.pos ⟨0, ""⟩).Size - offset) =
      min ((r.chunks.getD r.pos ⟨0, ""⟩).Size - offset) r.limit := by
    split <;> omega
  simp only [nextChunk, he]
  rw [if_neg (by omega)]
  rw [if_neg (by omega)]
  simp only [hmin]
  cases hr : r.reader with
  | none =>
    simp only [Close, hr, hcipher, Nat.add_sub_cancel, hopen, closeEvents, List.append_nil]
  | some s0 =>
    simp only [Close, hr, hclose, hcipher, Nat.add_sub_cancel, hopen, closeEvents]

theorem openedWindows_append (a b : List Event) :
    openedWindows (a ++ b) = openedWindows a ++ openedWindows b := by
  induction a with
  | nil => rfl
  | cons e es ih =>
    cases e with
    | opened i off count => simp [openedWindows, ih]
    | closed => simp [openedWindows, ih]

theorem openedWindows_closeEvents (r : decrpytedReader σ) :
    openedWindows (closeEvents r) = [] := by
  unfold closeEvents
  cases r.reader <;> rfl

theorem take_drop_append {α : Type} (p rest : List α) (o L : Nat) (h : o ≤ p.length) :
    List.take L (List.drop o (p ++ rest)) =
      List.take (min (p.length - o) L) (List.drop o p) ++
        List.take (L - min (p.length - o) L) rest := by
  rw [List.drop_append_of_le_length h, List.take_append_eq_append_take]
  simp only [List.length_drop]
  by_cases hc : p.length - o ≤ L
  · rw [min_eq_left hc, List.take_of_length_le (by simp; omega),
      List.take_of_length_le (l := List.drop o p) (by simp)]
  · have hc2 : L ≤ p.length - o := by omega
    rw [min_eq_right hc2]
    have h0 : L - (p.length - o) = 0 := by omega
    simp [h0]

theorem drop_append_skip {α : Type} (p rest : List α) (o : Nat) (h : p.length ≤ o) :
    List.drop o (p ++ rest) = List.drop (o - p.length) rest := by
  rw [List.drop_append_eq_append_drop, List.drop_of_length_le h, List.nil_append]

theorem drop_pos_cons (plain : List (List Byte)) (n : Nat) (h : n < plain.length) :
    plain.drop n = plain.getD n [] :: plain.drop (n + 1) := by
  rw [List.getD_eq_getElem _ _ h]
  exact List.drop_eq_getElem_cons h

/-- One iteration of the loop of `Read` from a state that holds no bytes. -/
theorem nextChunk_zero_step (B : Backend σ) (rem : σ → List Byte) (plain : List (List Byte))
    (D : Delivers B rem plain) (W : List Window) (r : decrpytedReader σ) (todo : List Byte)
    (I : Inv rem plain W r todo) (hc : r.count ≤ 0) (hl : 0 < r.limit) :
    ((nextChunk B r 0).1.1 < 0 ∧ (nextChunk B r 0).1.2 = some GoError.EOF ∧ todo = [] ∧
        openedWindows (nextChunk B r 0).2.trace = W ∧
        (nextChunk B r 0).2.limit = r.limit) ∨
    (0 ≤ (nextChunk B r 0).1.1 ∧ Inv rem plain W (nextChunk B r 0).2 todo ∧
        (nextChunk B r 0).2.pos = r.pos + 1 ∧ (nextChunk B r 0).2.limit = r.limit) := by
  have hlen := sizesMatch_length I.sizes
  have hcnt : r.count = 0 := le_antisymm hc I.cnt0
  obtain ⟨c, hclen, -, htodo⟩ := I.cur
  have hcnil : c = [] := by
    apply List.eq_nil_of_length_eq_zero
    omega
  subst hcnil
  by_cases hp : r.pos < plain.length
  · have hsz := getD_size I.sizes r.pos hp
    have hdrop := drop_pos_cons plain r.pos hp
    by_cases hs : (plain.getD r.pos []).length = 0
    · -- a part of size zero is skipped
      right
      rw [nextChunk_skip B r 0 I.err (by omega) hl (le_refl 0) (by rw [hsz]; omega)]
      have hnil : plain.getD r.pos [] = [] := List.eq_nil_of_length_eq_zero hs
      refine ⟨by show (0 : Int) ≤ 0 - _; rw [hsz]; omega, ?_, rfl, rfl⟩
      refine ⟨I.err, I.sizes, hp, I.cnt0, I.cntl, ⟨[], by simpa using hcnt.symm, ?_, ?_⟩, ?_⟩
      · intro h; simp only at h; omega
      · simp only [List.nil_append]
        rw [htodo, hdrop, hnil]
        simp
      · have hw := I.wins
        rw [hdrop] at hw
        simp only [List.map_cons, planWindows, hs] at hw
        rw [if_neg (by omega)] at hw
        simpa using hw
    · -- a part with bytes is opened at offset 0
      right
      have hpos : (0 : Int) < ((plain.getD r.pos []).length : Int) := by omega
      have hcountpos : 0 < min (((plain.getD r.pos []).length : Int) - 0) r.limit := by
        simp only [sub_zero]; omega
      obtain ⟨s, hopen, hrem⟩ := D.opens r.pos 0
        (min (((plain.getD r.pos []).length : Int) - 0) r.limit) hp (le_refl 0) hcountpos
        (by simp only [sub_zero]; omega)
      rw [nextChunk_open B r 0 I.err (by omega) hl (le_refl 0) (by rw [hsz]; omega)
        D.closes D.cipher s (by rw [hsz]; exact hopen)]
      refine ⟨le_refl 0, ?_, rfl, rfl⟩
      rw [hsz]
      refine ⟨I.err, I.sizes, hp, le_of_lt hcountpos, by simp, ⟨rem s, ?_, ?_, ?_⟩, ?_⟩
      · rw [hrem]
        simp only [List.length_take, List.length_drop, Int.toNat_zero, Nat.sub_zero, sub_zero]
        omega
      · intro _
        exact ⟨s, rfl, rfl⟩
      · rw [htodo, hdrop, hrem]
        simp only [List.nil_append, List.flatten_cons]
        have h1 := take_drop_append (plain.getD r.pos []) (plain.drop (r.pos + 1)).flatten 0
          (r.limit - r.count).toNat (Nat.zero_le _)
        simp only [List.drop_zero, Nat.sub_zero] at h1
        rw [h1]
        simp only [Int.toNat_zero, List.drop_zero, sub_zero]
        congr 2 <;> omega
      · have hw := I.wins
        rw [hdrop] at hw
        simp only [List.map_cons, planWindows] at hw
        rw [if_neg (by omega), if_neg (by omega)] at hw
        rw [← hw]
        simp only [openedWindows_append, openedWindows_closeEvents, openedWindows,
          List.append_nil, List.append_assoc, List.singleton_append, hcnt, sub_zero,
          List.nil_append]
  · -- no part is left
    left
    have hp2 : r.pos = plain.length := by have := I.pos; omega
    rw [nextChunk_eof B r 0 I.err (Or.inl (by omega))]
    refine ⟨by show (-1 : Int) < 0; omega, rfl, ?_, ?_, rfl⟩
    · rw [htodo, hp2]; simp
    · have hw := I.wins
      rw [hp2] at hw
      simpa [planWindows] using hw

/-- The loop of `Read` either ends the stream, when nothing is left to deliver, or leaves the
reader holding a sub-stream with bytes. -/
theorem readLoop_spec (B : Backend σ) (rem : σ → List Byte) (plain : List (List Byte))
    (D : Delivers B rem plain) (W : List Window) (todo : List Byte) :
    ∀ (fuel : Nat) (r : decrpytedReader σ), Inv rem plain W r todo → 0 < r.limit →
      plain.length + 1 ≤ fuel + r.pos →
      ∃ res r1, readLoop B fuel r = Except.ok (res, r1) ∧ r1.limit = r.limit ∧
        ((res = some (some GoError.EOF) ∧ todo = [] ∧ Done W r1) ∨
          (res = none ∧ Inv rem plain W r1 todo ∧ 0 < r1.count)) := by
  intro fuel
  induction fuel with
  | zero =>
    intro r I _ hf
    have := I.pos
    omega
  | succ n ih =>
    intro r I hl hf
    by_cases hc : r.count ≤ 0
    · rcases nextChunk_zero_step B rem plain D W r todo I hc hl with
        ⟨h1, h2, h3, h4, h5⟩ | ⟨h1, h2, h3, h4⟩
      · refine ⟨some (some GoError.EOF),
          { (nextChunk B r 0).2 with err := some GoError.EOF }, ?_, h5, Or.inl ⟨rfl, h3, ?_⟩⟩
        · simp only [readLoop]
          rw [if_pos hc, if_pos h1, h2]
        · exact ⟨rfl, h4⟩
      · obtain ⟨res, r1, e1, e2, e3⟩ := ih (nextChunk B r 0).2 h2 (by rw [h4]; exact hl)
          (by rw [h3]; omega)
        refine ⟨res, r1, ?_, by rw [e2, h4], e3⟩
        simp only [readLoop]
        rw [if_pos hc, if_neg (by omega)]
        exact e1
    · refine ⟨none, r, ?_, rfl, Or.inr ⟨rfl, I, by omega⟩⟩
      simp only [readLoop]
      rw [if_neg hc]

/-- A `Read` on a reader that has recorded `io.EOF` returns `(0, io.EOF)` and changes nothing. -/
theorem Read_of_err (B : Backend σ) (r : decrpytedReader σ) (k : Nat) (e : GoError)
    (h : r.err = some e) : Read B r k = Except.ok (([], some e), r) := by
  simp only [Read, h]

/-- One `Read` with a non-empty buffer from a state that has not failed: it delivers the next
bytes, at least one unless nothing is left, in which case it reports `io.EOF`. -/
theorem Read_spec (B : Backend σ) (rem : σ → List Byte) (plain : List (List Byte))
    (D : Delivers B rem plain) (W : List Window) (todo : List Byte) (r : decrpytedReader σ)
    (I : Inv rem plain W r todo) (k : Nat) (hk : 0 < k) :
    ∃ out e r1 rest, Read B r k = Except.ok ((out, e), r1) ∧ out ++ rest = todo ∧
      r1.limit = r.limit - (out.length : Int) ∧
      ((e = none ∧ out ≠ [] ∧ Inv rem plain W r1 rest) ∨
        (e = some GoError.EOF ∧ rest = [] ∧ Done W r1)) := by
  by_cases hl : r.limit ≤ 0
  · -- nothing is left of the limit
    have hcnt : r.count = 0 := by have := I.cnt0; have := I.cntl; omega
    obtain ⟨c, hclen, -, htodo⟩ := I.cur
    have hcnil : c = [] := by
      apply List.eq_nil_of_length_eq_zero
      omega
    have ht : todo = [] := by
      rw [htodo, hcnil]
      have : (r.limit - r.count).toNat = 0 := by omega
      simp [this]
    refine ⟨[], some GoError.EOF, { r with err := some GoError.EOF }, [], ?_, by simp [ht],
      by simp, Or.inr ⟨rfl, rfl, rfl, ?_⟩⟩
    · simp only [Read, I.err]
      rw [if_pos hl]
    · have hw := I.wins
      have h0 : r.limit - r.count ≤ 0 := by omega
      cases hd : (List.map (fun p : List Byte => (p.length : Int)) (List.drop r.pos plain)) with
      | nil => rw [hd] at hw; simpa [planWindows] using hw
      | cons a l =>
        rw [hd] at hw
        simp only [planWindows] at hw
        rw [if_pos h0] at hw
        simpa using hw
  · have hl2 : 0 < r.limit := by omega
    have hlen := sizesMatch_length I.sizes
    obtain ⟨res, r1, e1, e2, e3⟩ := readLoop_spec B rem plain D W todo (r.chunks.length + 1) r I
      hl2 (by rw [hlen]; omega)
    rcases e3 with ⟨hres, ht, hd⟩ | ⟨hres, I1, hc1⟩
    · refine ⟨[], some GoError.EOF, r1, [], ?_, by simp [ht], by simp [e2],
        Or.inr ⟨rfl, rfl, hd⟩⟩
      simp only [Read, I.err]
      rw [if_neg hl, e1, hres]
    · obtain ⟨c, hclen, hcur, htodo⟩ := I1.cur
      obtain ⟨s, hs, hrem⟩ := hcur hc1
      have hne : rem s ≠ [] := by
        intro h
        rw [hrem] at h
        rw [h] at hclen
        simp at hclen
        omega
      obtain ⟨rd1, rd2, rd3⟩ := D.reads s k hk hne
      have hsplit : (B.read s k).1 ++ (rem (B.read s k).2.2 ++
          ((plain.drop r1.pos).flatten).take (r1.limit - r1.count).toNat) = todo := by
        rw [← List.append_assoc, rd2, hrem, htodo]
      have hlenout : ((B.read s k).1.length : Int) + ((rem (B.read s k).2.2).length : Int)
          = r1.count := by
        rw [← hclen, ← hrem, ← rd2]
        simp
      have hcond : (B.read s k).2.1 = none ∨ (B.read s k).2.1 = some GoError.EOF := by
        rcases rd3 with h | h
        · exact Or.inl h
        · exact Or.inr h.1
      have hRead : Read B r k = Except.ok (((B.read s k).1,
          if (0 : Int) < r1.limit - ((B.read s k).1.length : Int) then none
          else (B.read s k).2.1),
          { r1 with
            reader := some (B.read s k).2.2
            count := r1.count - ((B.read s k).1.length : Int)
            limit := r1.limit - ((B.read s k).1.length : Int)
            err := if (0 : Int) < r1.limit - ((B.read s k).1.length : Int) then none
              else (B.read s k).2.1 }) := by
        simp only [Read, I.err]
        rw [if_neg hl, e1, hres]
        simp only [hs]
        rw [if_pos hcond]
      have hInv : ∀ h : (if (0 : Int) < r1.limit - ((B.read s k).1.length : Int) then none
          else (B.read s k).2.1) = none,
          Inv rem plain W { r1 with
            reader := some (B.read s k).2.2
            count := r1.count - ((B.read s k).1.length : Int)
            limit := r1.limit - ((B.read s k).1.length : Int)
            err := if (0 : Int) < r1.limit - ((B.read s k).1.length : Int) then none
              else (B.read s k).2.1 }
            (rem (B.read s k).2.2 ++
              ((plain.drop r1.pos).flatten).take (r1.limit - r1.count).toNat) := by
        intro h
        refine ⟨h, I1.sizes, I1.pos, ?_, ?_, ⟨rem (B.read s k).2.2, ?_, ?_, ?_⟩, ?_⟩
        · show 0 ≤ r1.count - ((B.read s k).1.length : Int)
          omega
        · show r1.count - ((B.read s k).1.length : Int) ≤ r1.limit - ((B.read s k).1.length : Int)
          have := I1.cntl
          omega
        · show _ = r1.count - ((B.read s k).1.length : Int)
          omega
        · intro _
          exact ⟨_, rfl, rfl⟩
        · show _ = _ ++ List.take (r1.limit - ((B.read s k).1.length : Int) -
            (r1.count - ((B.read s k).1.length : Int))).toNat _
          have : r1.limit - ((B.read s k).1.length : Int) -
            (r1.count - ((B.read s k).1.length : Int)) = r1.limit - r1.count := by omega
          rw [this]
        · show openedWindows r1.trace ++ planWindows r1.pos _ 0
            (r1.limit - ((B.read s k).1.length : Int) -
              (r1.count - ((B.read s k).1.length : Int))) = W
          have : r1.limit - ((B.read s k).1.length : Int) -
            (r1.count - ((B.read s k).1.length : Int)) = r1.limit - r1.count := by omega
          rw [this]
          exact I1.wins
      refine ⟨_, _, _, _, hRead, hsplit, by simp only [e2], ?_⟩
      by_cases hlim : (0 : Int) < r1.limit - ((B.read s k).1.length : Int)
      · left
        exact ⟨by rw [if_pos hlim], rd1, hInv (by rw [if_pos hlim])⟩
      · -- the limit is used up by this read
        have hcl := I1.cntl
        have hz1 : r1.limit - ((B.read s k).1.length : Int) = 0 := by omega
        have hz2 : (rem (B.read s k).2.2).length = 0 := by omega
        have hz3 : r1.limit - r1.count = 0 := by omega
        rcases rd3 with h | ⟨h, _⟩
        · left
          exact ⟨by rw [if_neg hlim]; exact h, rd1, hInv (by rw [if_neg hlim]; exact h)⟩
        · right
          refine ⟨by rw [if_neg hlim]; exact h, ?_, ⟨by show (if _ then _ else _) = _; rw [if_neg hlim]; exact h, ?_⟩⟩
          · rw [List.eq_nil_of_length_eq_zero hz2, hz3]
            simp
          · show openedWindows r1.trace = W
            have hw := I1.wins
            rw [hz3] at hw
            cases hd : (List.map (fun p : List Byte => (p.length : Int))
                (List.drop r1.pos plain)) with
            | nil => rw [hd] at hw; simpa [planWindows] using hw
            | cons a l =>
              rw [hd] at hw
              simp only [planWindows] at hw
              rw [if_pos (le_refl 0)] at hw
              simpa using hw

/-- Reading from a state that has not failed delivers a prefix of what is left, one byte or more
per buffer, up to and including the `Read` that reports `io.EOF`. -/
theorem readAll_spec (B : Backend σ) (rem : σ → List Byte) (plain : List (List Byte))
    (D : Delivers B rem plain) (W : List Window) :
    ∀ (ks : List Nat) (r : decrpytedReader σ) (todo : List Byte), Inv rem plain W r todo →
      (∀ k ∈ ks, 0 < k) →
      ∃ out e r1 rest, readAll B ks r = Except.ok (out, e, r1) ∧ out ++ rest = todo ∧
        r1.limit = r.limit - (out.length : Int) ∧
        ((e = none ∧ Inv rem plain W r1 rest ∧ ks.length ≤ out.length) ∨
          (e = some GoError.EOF ∧ rest = [] ∧ Done W r1)) := by
  intro ks
  induction ks with
  | nil =>
    intro r todo I _
    exact ⟨[], none, r, todo, rfl, rfl, by simp, Or.inl ⟨rfl, I, by simp⟩⟩
  | cons k ks ih =>
    intro r todo I hk
    obtain ⟨out, e, r1, rest, h1, h2, h3, h4⟩ :=
      Read_spec B rem plain D W todo r I k (hk k (List.mem_cons_self k ks))
    rcases h4 with ⟨he, hne, I1⟩ | ⟨he, hrest, hd⟩
    · obtain ⟨out2, e2, r2, rest2, g1, g2, g3, g4⟩ :=
        ih r1 rest I1 (fun x hx => hk x (List.mem_cons_of_mem k hx))
      refine ⟨out ++ out2, e2, r2, rest2, ?_, ?_, ?_, ?_⟩
      · simp only [readAll, h1, he, g1]
      · rw [List.append_assoc, g2, h2]
      · rw [g3, h3]
        simp only [List.length_append, Nat.cast_add]
        omega
      · rcases g4 with ⟨a, b, c⟩ | ⟨a, b, c⟩
        · left
          refine ⟨a, b, ?_⟩
          have : 0 < out.length := List.length_pos.mpr hne
          simp only [List.length_cons, List.length_append]
          omega
        · exact Or.inr ⟨a, b, c⟩
    · refine ⟨out, some GoError.EOF, r1, rest, ?_, h2, h3, Or.inr ⟨rfl, hrest, hd⟩⟩
      simp only [readAll, h1, he]

/-- Reading from a state that has recorded `io.EOF` delivers nothing. -/
theorem readAll_of_done (B : Backend σ) (r : decrpytedReader σ) (h : r.err = some GoError.EOF)
    (k : Nat) (ks : List Nat) :
    readAll B (k :: ks) r = Except.ok ([], some GoError.EOF, r) := by
  simp only [readAll, Read_of_err B r k GoError.EOF h]

theorem seekLoop_exit (B : Backend σ) (fuel : Nat) (r : decrpytedReader σ) (offset : Int)
    (err : Option GoError) (h : ¬(offset ≥ 0 ∧ err ≠ none)) :
    seekLoop B fuel r offset err = Except.ok (err, r) := by
  cases fuel with
  | zero => simp only [seekLoop]; rw [if_neg h]
  | succ n => simp only [seekLoop]; rw [if_neg h]

/-- The seek loop of the constructor skips the parts that lie before the offset and opens the
part that holds it, or finds that nothing is to be delivered. -/
theorem seekLoop_spec (B : Backend σ) (rem : σ → List Byte) (plain : List (List Byte))
    (D : Delivers B rem plain) :
    ∀ (fuel : Nat) (r : decrpytedReader σ) (offset : Int), r.err = none → r.count = 0 →
      r.reader = none → r.trace = [] → SizesMatch r.chunks plain → r.pos ≤ plain.length →
      0 ≤ offset → 0 ≤ r.limit → plain.length + 1 ≤ fuel + r.pos →
      ∃ e r1, seekLoop B fuel r offset (some GoError.EOF) = Except.ok (e, r1) ∧
        r1.limit = r.limit ∧
        ((e = some GoError.EOF ∧
            List.take r.limit.toNat (List.drop offset.toNat (plain.drop r.pos).flatten) = [] ∧
            planWindows r.pos ((plain.drop r.pos).map fun p => (p.length : Int)) offset
              r.limit = [] ∧ r1.trace = []) ∨
          (e = none ∧
            Inv rem plain
              (planWindows r.pos ((plain.drop r.pos).map fun p => (p.length : Int)) offset
                r.limit) r1
              (List.take r.limit.toNat
                (List.drop offset.toNat (plain.drop r.pos).flatten)))) := by
  intro fuel
  induction fuel with
  | zero =>
    intro r offset _ _ _ _ _ hp _ _ hf
    omega
  | succ n ih =>
    intro r offset he hc hr ht hs hp ho hl hf
    have hlen := sizesMatch_length hs
    have hcond : offset ≥ 0 ∧ (some GoError.EOF : Option GoError) ≠ none := ⟨ho, by simp⟩
    simp only [seekLoop]
    rw [if_pos hcond]
    by_cases hend : r.pos ≥ r.chunks.length ∨ r.limit ≤ 0 ∨ offset < 0
    · -- nothing to deliver
      rw [nextChunk_eof B r offset he hend]
      refine ⟨some GoError.EOF, r, ?_, rfl, Or.inl ⟨rfl, ?_, ?_, ht⟩⟩
      · exact seekLoop_exit B n r (-1) (some GoError.EOF) (by simp)
      · rcases hend with h | h | h
        · have : plain.drop r.pos = [] := List.drop_of_length_le (by omega)
          simp [this]
        · have : r.limit.toNat = 0 := by omega
          simp [this]
        · omega
      · rcases hend with h | h | h
        · have : plain.drop r.pos = [] := List.drop_of_length_le (by omega)
          simp [this, planWindows]
        · cases hd : (List.map (fun p : List Byte => (p.length : Int))
              (List.drop r.pos plain)) with
          | nil => simp [planWindows]
          | cons a l => simp only [planWindows]; rw [if_pos h]
        · omega
    · have hp2 : r.pos < plain.length := by omega
      have hl2 : 0 < r.limit := by omega
      have hsz := getD_size hs r.pos hp2
      have hdrop := drop_pos_cons plain r.pos hp2
      by_cases hskip : ((plain.getD r.pos []).length : Int) ≤ offset
      · -- the part lies before the offset
        rw [nextChunk_skip B r offset he (by omega) hl2 ho (by rw [hsz]; exact hskip)]
        obtain ⟨e, r1, g1, g2, g3⟩ := ih { r with pos := r.pos + 1 }
          (offset - (r.chunks.getD r.pos ⟨0, ""⟩).Size) he hc hr ht hs hp2
          (by rw [hsz]; omega) hl (by show _ ≤ n + (r.pos + 1); omega)
        refine ⟨e, r1, g1, g2, ?_⟩
        have hflat : List.drop offset.toNat (plain.drop r.pos).flatten =
            List.drop (offset - (r.chunks.getD r.pos ⟨0, ""⟩).Size).toNat
              (plain.drop (r.pos + 1)).flatten := by
          rw [hdrop, List.flatten_cons, drop_append_skip _ _ _ (by omega), hsz]
          congr 1
          omega
        have hplan : planWindows r.pos ((plain.drop r.pos).map fun p => (p.length : Int))
            offset r.limit =
            planWindows (r.pos + 1) ((plain.drop (r.pos + 1)).map fun p => (p.length : Int))
              (offset - (r.chunks.getD r.pos ⟨0, ""⟩).Size) r.limit := by
          rw [hdrop]
          simp only [List.map_cons, planWindows]
          rw [if_neg (by omega), if_pos (by omega), hsz]
        rw [hflat, hplan]
        exact g3
      · -- the part holds the offset: it is opened
        have hlt : offset < ((plain.getD r.pos []).length : Int) := by omega
        have hcountpos : 0 < min (((plain.getD r.pos []).length : Int) - offset) r.limit := by
          omega
        obtain ⟨s, hopen, hrem⟩ := D.opens r.pos offset
          (min (((plain.getD r.pos []).length : Int) - offset) r.limit) hp2 ho hcountpos
          (by omega)
        rw [nextChunk_open B r offset he (by omega) hl2 ho (by rw [hsz]; exact hlt)
          D.closes D.cipher s (by rw [hsz]; exact hopen)]
        refine ⟨none, _, seekLoop_exit B n _ offset none (by simp), rfl, Or.inr ⟨rfl, ?_⟩⟩
        rw [hsz]
        refine ⟨he, hs, hp2, le_of_lt hcountpos, by simp, ⟨rem s, ?_, ?_, ?_⟩, ?_⟩
        · rw [hrem]
          simp only [List.length_take, List.length_drop]
          omega
        · intro _
          exact ⟨s, rfl, rfl⟩
        · rw [hdrop, hrem]
          simp only [List.flatten_cons]
          rw [take_drop_append _ _ _ _ (by omega)]
          congr 2 <;> omega
        · rw [hdrop]
          simp only [List.map_cons, planWindows]
          rw [if_neg (by omega), if_neg (by omega)]
          simp only [ht, closeEvents, hr, openedWindows, List.nil_append, List.append_nil,
            List.singleton_append]

/-- The constructor succeeds on a fault-free backend: the reader it returns either has nothing
to deliver, or is about to deliver bytes `[offset, offset + limit)` of the file. -/
theorem NewDecryptedReader_spec (B : Backend σ) (rem : σ → List Byte)
    (plain : List (List Byte)) (D : Delivers B rem plain) (chunks : List Part)
    (hs : SizesMatch chunks plain) (offset limit : Int) (ho : 0 ≤ offset) (hl : 0 ≤ limit)
    (key : String) :
    ∃ r, NewDecryptedReader B offset limit chunks key = Except.ok (Except.ok r) ∧
      r.limit = limit ∧
      ((List.take limit.toNat (List.drop offset.toNat plain.flatten) = [] ∧
          Done (planWindows 0 (plain.map fun p => (p.length : Int)) offset limit) r) ∨
        Inv rem plain (planWindows 0 (plain.map fun p => (p.length : Int)) offset limit) r
          (List.take limit.toNat (List.drop offset.toNat plain.flatten))) := by
  have hlen := sizesMatch_length hs
  obtain ⟨e, r1, g1, g2, g3⟩ := seekLoop_spec B rem plain D (chunks.length + 1)
    { chunks := chunks, limit := limit, count := 0, pos := 0, reader := none, err := none,
      encryptionKey := key, trace := [] } offset rfl rfl rfl rfl hs (Nat.zero_le _) ho hl
    (by show _ ≤ chunks.length + 1 + 0; omega)
  simp only [List.drop_zero] at g3
  rcases g3 with ⟨he, ht, hw, htr⟩ | ⟨he, I⟩
  · refine ⟨{ r1 with err := some GoError.EOF }, ?_, g2, Or.inl ⟨ht, ⟨rfl, ?_⟩⟩⟩
    · simp only [NewDecryptedReader, g1, he]
    · show openedWindows r1.trace = _
      rw [htr, hw]
      rfl
  · refine ⟨r1, ?_, g2, Or.inr I⟩
    have : r1 = { r1 with err := none } := by
      cases r1
      simp only [decrpytedReader.mk.injEq, true_and, and_true]
      exact I.err
    simp only [NewDecryptedReader, g1, he]
    rw [← this]

/-! ## Decrypted reader: the bytes delivered (C1) -/

theorem sliceBackend_delivers (plain : List (List Byte)) (chunk : Nat) (eofWithData : Bool) :
    Delivers (sliceBackend plain chunk eofWithData) (fun s => s) plain where
  cipher := fun _ _ => rfl
  opens := fun i off count _ _ _ _ => ⟨_, rfl, rfl⟩
  closes := fun _ => rfl
  reads := by
    intro s k hk hs
    have hn : 0 < min k (max chunk 1) := by omega
    have htake : List.take (min k (max chunk 1)) s ≠ [] := by
      cases s with
      | nil => exact absurd rfl hs
      | cons a l =>
        obtain ⟨m, hm⟩ : ∃ m, min k (max chunk 1) = m + 1 := ⟨min k (max chunk 1) - 1, by omega⟩
        rw [hm]
        simp
    simp only [sliceBackend]
    rw [if_neg hs]
    by_cases hc : List.drop (min k (max chunk 1)) s = [] ∧ eofWithData = true
    · rw [if_pos hc]
      refine ⟨htake, ?_, Or.inr ⟨rfl, rfl⟩⟩
      have := List.take_append_drop (min k (max chunk 1)) s
      rw [hc.1] at this
      exact this
    · rw [if_neg hc]
      exact ⟨htake, List.take_append_drop _ _, Or.inl rfl⟩

theorem sizesMatch_partsOf (plain : List (List Byte)) : SizesMatch (partsOf plain) plain := by
  simp [SizesMatch, partsOf]

theorem sum_sizes_eq (plain : List (List Byte)) :
    (plain.map fun p => (p.length : Int)).sum = (plain.flatten.length : Int) := by
  induction plain with
  | nil => rfl
  | cons p ps ih => simp [ih]

theorem Inv_todo_length {rem : σ → List Byte} {plain : List (List Byte)} {W : List Window}
    {r : decrpytedReader σ} {todo : List Byte} (I : Inv rem plain W r todo) :
    (todo.length : Int) ≤ r.limit := by
  obtain ⟨c, h1, -, h3⟩ := I.cur
  have := I.cntl
  rw [h3]
  simp only [List.length_append, List.length_take, Nat.cast_add]
  omega

/-- C1. On a fault-free backend whose sub-streams deliver the windows of the plaintexts, in
reads of any positive sizes, the reader built by `NewDecryptedReader(offset, limit, parts)`
with `offset ≥ 0` and `limit ≥ 0` is built without error, and the bytes its `Read`s return,
concatenated in order up to the first error, are bytes `[offset, min(offset + limit, S))` of
the concatenated plaintexts: what has been read is always a prefix of that range, it is the
whole range as soon as a `Read` has returned an error, that error is `io.EOF`, and it is reached
once more buffers are offered than the range has bytes.  When `offset + limit ≤ S` the range has
exactly `limit` bytes. -/
theorem decryptedReader_delivers_range (B : Backend σ) (rem : σ → List Byte)
    (plain : List (List Byte)) (D : Delivers B rem plain) (chunks : List Part)
    (hs : SizesMatch chunks plain) (offset limit : Int) (ho : 0 ≤ offset) (hl : 0 ≤ limit)
    (key : String) (bufs : List Nat) (hb : ∀ k ∈ bufs, 0 < k) :
    ∃ out e tr, runReader B offset limit chunks key bufs = Except.ok (Except.ok (out, e, tr)) ∧
      out <+: List.take limit.toNat (List.drop offset.toNat plain.flatten) ∧
      (e ≠ none → out = List.take limit.toNat (List.drop offset.toNat plain.flatten) ∧
        e = some GoError.EOF) ∧
      ((List.take limit.toNat (List.drop offset.toNat plain.flatten)).length < bufs.length →
        e ≠ none) ∧
      (offset + limit ≤ (chunks.map Part.Size).sum →
        ((List.take limit.toNat (List.drop offset.toNat plain.flatten)).length : Int) =
          limit) := by
  have hlast : offset + limit ≤ (chunks.map Part.Size).sum →
      ((List.take limit.toNat (List.drop offset.toNat plain.flatten)).length : Int) =
        limit := by
    intro h
    rw [hs, sum_sizes_eq] at h
    simp only [List.length_take, List.length_drop]
    omega
  obtain ⟨r, h1, h2, h3⟩ := NewDecryptedReader_spec B rem plain D chunks hs offset limit ho hl key
  rcases h3 with ⟨ht, hd⟩ | I
  · -- nothing to deliver: every read reports io.EOF
    rw [ht] at hlast ⊢
    cases bufs with
    | nil =>
      refine ⟨[], none, r.trace, ?_, List.prefix_refl _, by simp, by simp, hlast⟩
      simp only [runReader, h1, readAll]
    | cons k ks =>
      refine ⟨[], some GoError.EOF, r.trace, ?_, List.prefix_refl _, by simp, by simp, hlast⟩
      simp only [runReader, h1, readAll_of_done B r hd.err k ks]
  · obtain ⟨out, e, r1, rest, g1, g2, g3, g4⟩ := readAll_spec B rem plain D _ bufs r _ I hb
    refine ⟨out, e, r1.trace, ?_, ⟨rest, g2⟩, ?_, ?_, hlast⟩
    · simp only [runReader, h1, g1]
    · intro hne
      rcases g4 with ⟨a, _, _⟩ | ⟨a, b, _⟩
      · exact absurd a hne
      · rw [b, List.append_nil] at g2
        exact ⟨g2, a⟩
    · intro hlen
      rcases g4 with ⟨_, _, c⟩ | ⟨a, _, _⟩
      · have : out.length ≤ (List.take limit.toNat
            (List.drop offset.toNat plain.flatten)).length := by
          rw [← g2]
          simp
        omega
      · rw [a]
        simp

/-- Witness for C1: two parts `[1, 2, 3]` and `[4, 5]`, offset 1, limit 3, sub-streams that
deliver two bytes per read, four buffers of length 4. -/
theorem decryptedReader_delivers_range_witness :
    ∃ out e tr,
      runReader (sliceBackend [[1, 2, 3], [4, 5]] 2 true) 1 3 (partsOf [[1, 2, 3], [4, 5]]) ""
        [4, 4, 4, 4] = Except.ok (Except.ok (out, e, tr)) ∧
      out <+: List.take (3 : Int).toNat
        (List.drop (1 : Int).toNat ([[1, 2, 3], [4, 5]] : List (List Byte)).flatten) ∧
      (e ≠ none → out = List.take (3 : Int).toNat
          (List.drop (1 : Int).toNat ([[1, 2, 3], [4, 5]] : List (List Byte)).flatten) ∧
        e = some GoError.EOF) ∧
      ((List.take (3 : Int).toNat
          (List.drop (1 : Int).toNat ([[1, 2, 3], [4, 5]] : List (List Byte)).flatten)).length
          < [4, 4, 4, 4].length → e ≠ none) ∧
      ((1 : Int) + 3 ≤ ((partsOf [[1, 2, 3], [4, 5]]).map Part.Size).sum →
        ((List.take (3 : Int).toNat
          (List.drop (1 : Int).toNat
            ([[1, 2, 3], [4, 5]] : List (List Byte)).flatten)).length : Int) = 3) :=
  decryptedReader_delivers_range (sliceBackend [[1, 2, 3], [4, 5]] 2 true) (fun s => s)
    [[1, 2, 3], [4, 5]] (sliceBackend_delivers _ 2 true) (partsOf [[1, 2, 3], [4, 5]])
    (sizesMatch_partsOf _) 1 3 (by decide) (by decide) "" [4, 4, 4, 4] (by decide)

/-! ## Decrypted reader: the windows opened (C2) -/

/-- The windows that `nextChunk` opens are those of the chunk locator. -/
theorem planWindows_eq_chunkLocator (start end_ : Int) (hse : start ≤ end_) :
    ∀ (sizes : List Int) (i : Nat) (acc off lim : Int), (∀ s ∈ sizes, 0 < s) →
      off = max 0 (start - acc) → (0 < lim → lim = end_ - max start acc + 1) →
      (lim ≤ 0 → end_ < acc) →
      planWindows i sizes off lim = chunkLocator start end_ i acc sizes := by
  intro sizes
  induction sizes with
  | nil => intros; rfl
  | cons s rest ih =>
    intro i acc off lim hpos hoff hlim1 hlim2
    have hs : 0 < s := hpos s (List.mem_cons_self s rest)
    have hrest : ∀ x ∈ rest, 0 < x := fun x hx => hpos x (List.mem_cons_of_mem s hx)
    simp only [planWindows, chunkLocator]
    by_cases hl : lim ≤ 0
    · have := hlim2 hl
      rw [if_pos hl, if_neg (by omega), if_pos this]
    · have hl1 := hlim1 (by omega)
      rw [if_neg hl]
      by_cases hsk : off ≥ s
      · rw [if_pos hsk, if_pos (by omega)]
        exact ih (i + 1) (acc + s) (off - s) lim hrest (by omega) (by intro _; omega)
          (by intro h; omega)
      · rw [if_neg hsk, if_neg (by omega), if_neg (by omega)]
        have hw : (⟨i, off, min (s - off) lim⟩ : Window) =
            ⟨i, if acc ≤ start then start - acc else 0,
              (if end_ < acc + s then end_ - acc else s - 1) -
                (if acc ≤ start then start - acc else 0) + 1⟩ := by
          congr 1
          · split <;> omega
          · split <;> split <;> omega
        rw [hw]
        congr 1
        exact ih (i + 1) (acc + s) 0 (lim - min (s - off) lim) hrest (by omega)
          (by intro _; omega) (by intro h; omega)

theorem drop_eq_cons_iff {full : List Int} {i : Nat} {s : Int} {rest : List Int}
    (h : full.drop i = s :: rest) :
    i < full.length ∧ full.getD i 0 = s ∧ full.drop (i + 1) = rest := by
  have hi : i < full.length := by
    by_contra hc
    rw [List.drop_of_length_le (by omega)] at h
    exact List.noConfusion h
  rw [List.drop_eq_getElem_cons hi] at h
  rw [List.getD_eq_getElem _ _ hi]
  exact ⟨hi, (List.cons.inj h).1, (List.cons.inj h).2⟩

theorem accAt_succ (full : List Int) (i : Nat) (hi : i < full.length) :
    accAt full (i + 1) = accAt full i + full.getD i 0 := by
  unfold accAt
  rw [List.sum_take_succ _ _ hi, List.getD_eq_getElem _ _ hi]

theorem accAt_add_sum_drop (full : List Int) (i : Nat) :
    accAt full i + (full.drop i).sum = full.sum :=
  List.sum_take_add_sum_drop full i

theorem accAt_mono (full : List Int) (hpos : ∀ s ∈ full, 0 < s) (j : Nat) :
    ∀ k, j ≤ k → accAt full j ≤ accAt full k := by
  intro k hjk
  induction k with
  | zero =>
    have : j = 0 := by omega
    rw [this]
  | succ n ih =>
    by_cases hj : j = n + 1
    · rw [hj]
    · have h1 := ih (by omega)
      by_cases hn : n < full.length
      · rw [accAt_succ full n hn]
        have : 0 < full.getD n 0 := by
          rw [List.getD_eq_getElem _ _ hn]
          exact hpos _ (List.getElem_mem hn)
        omega
      · have e1 : accAt full (n + 1) = accAt full n := by
          unfold accAt
          rw [List.take_of_length_le (by omega), List.take_of_length_le (by omega)]
        rw [e1]
        exact h1

theorem planWindows_nil_of_lim (i : Nat) (sizes : List Int) (off lim : Int) (h : lim ≤ 0) :
    planWindows i sizes off lim = [] := by
  cases sizes with
  | nil => rfl
  | cons s rest => simp only [planWindows]; rw [if_pos h]

/-- After the head, every window starts at in-part offset 0. -/
theorem planWindows_zero_off :
    ∀ (sizes : List Int) (i : Nat) (lim : Int), (∀ s ∈ sizes, 0 < s) →
      ∀ w ∈ planWindows i sizes 0 lim, w.off = 0 := by
  intro sizes
  induction sizes with
  | nil => intro i lim _ w hw; simp [planWindows] at hw
  | cons s rest ih =>
    intro i lim hpos w hw
    have hs : 0 < s := hpos s (List.mem_cons_self s rest)
    have hrest : ∀ x ∈ rest, 0 < x := fun x hx => hpos x (List.mem_cons_of_mem s hx)
    simp only [planWindows] at hw
    by_cases hl : lim ≤ 0
    · rw [if_pos hl] at hw
      simp at hw
    · rw [if_neg hl, if_neg (by omega)] at hw
      rcases List.mem_cons.mp hw with h | h
      · rw [h]
      · exact ih (i + 1) _ hrest w h

/-- The head: the first window is that of the part in which the offset lies, entered at the
offset inside that part, and what follows is the plan from the next part on at offset 0. -/
theorem planWindows_head (full : List Int) (hpos : ∀ s ∈ full, 0 < s) :
    ∀ (sub : List Int) (i : Nat) (off lim : Int), sub = full.drop i → 0 ≤ off → 0 < lim →
      off < sub.sum →
      ∃ w rest, planWindows i sub off lim = w :: rest ∧
        accAt full w.i ≤ accAt full i + off ∧ accAt full i + off < accAt full (w.i + 1) ∧
        w.off = accAt full i + off - accAt full w.i ∧ (∀ v ∈ rest, v.off = 0) := by
  intro sub
  induction sub with
  | nil => intro i off lim _ ho _ hsum; simp at hsum; omega
  | cons s rest ih =>
    intro i off lim hsub ho hl hsum
    obtain ⟨hi, hget, hdrop⟩ := drop_eq_cons_iff hsub.symm
    have hacc := accAt_succ full i hi
    rw [hget] at hacc
    have hrest : ∀ x ∈ rest, 0 < x := by
      intro x hx
      apply hpos
      have : x ∈ full.drop i := by rw [← hsub]; exact List.mem_cons_of_mem s hx
      exact List.mem_of_mem_drop this
    simp only [planWindows]
    rw [if_neg (by omega)]
    by_cases hsk : off ≥ s
    · rw [if_pos hsk]
      obtain ⟨w, ws, h1, h2, h3, h4, h5⟩ := ih (i + 1) (off - s) lim hdrop.symm (by omega) hl
        (by simp only [List.sum_cons] at hsum; omega)
      exact ⟨w, ws, h1, by omega, by omega, by omega, h5⟩
    · rw [if_neg hsk]
      refine ⟨_, _, rfl, by simp only; omega, by simp only; omega, by simp only; omega, ?_⟩
      exact planWindows_zero_off rest (i + 1) _ hrest

/-- Every window but the last runs to the end of its part. -/
theorem planWindows_inner_count (full : List Int) :
    ∀ (sub : List Int) (i : Nat) (off lim : Int), sub = full.drop i →
      ∀ (j : Nat), j + 1 < (planWindows i sub off lim).length →
        ∀ w, (planWindows i sub off lim)[j]? = some w →
          w.count = full.getD w.i 0 - w.off := by
  intro sub
  induction sub with
  | nil => intro i off lim _ j hj; simp [planWindows] at hj
  | cons s rest ih =>
    intro i off lim hsub j hj w hw
    obtain ⟨hi, hget, hdrop⟩ := drop_eq_cons_iff hsub.symm
    simp only [planWindows] at hj hw
    by_cases hl : lim ≤ 0
    · rw [if_pos hl] at hj
      simp at hj
    · rw [if_neg hl] at hj hw
      by_cases hsk : off ≥ s
      · rw [if_pos hsk] at hj hw
        exact ih (i + 1) (off - s) lim hdrop.symm j hj w hw
      · rw [if_neg hsk] at hj hw
        cases j with
        | zero =>
          simp only [List.getElem?_cons_zero, Option.some.injEq] at hw
          by_cases hle : lim - min (s - off) lim ≤ 0
          · rw [planWindows_nil_of_lim _ _ _ _ hle] at hj
            simp at hj
          · rw [← hw]
            simp only
            rw [hget]
            omega
        | succ n =>
          simp only [List.getElem?_cons_succ] at hw
          simp only [List.length_cons] at hj
          exact ih (i + 1) 0 _ hdrop.symm n (by omega) w hw

/-- The last window ends where the range ends. -/
theorem planWindows_last (full : List Int) (hpos : ∀ s ∈ full, 0 < s) :
    ∀ (sub : List Int) (i : Nat) (off lim : Int), sub = full.drop i → 0 ≤ off → 0 < lim →
      off + lim ≤ sub.sum →
      ∀ w, (planWindows i sub off lim).getLast? = some w →
        w.off + w.count = accAt full i + off + lim - accAt full w.i := by
  intro sub
  induction sub with
  | nil => intro i off lim _ ho hl hsum; simp at hsum; omega
  | cons s rest ih =>
    intro i off lim hsub ho hl hsum w hw
    obtain ⟨hi, hget, hdrop⟩ := drop_eq_cons_iff hsub.symm
    have hacc := accAt_succ full i hi
    rw [hget] at hacc
    simp only [List.sum_cons] at hsum
    simp only [planWindows] at hw
    rw [if_neg (by omega)] at hw
    by_cases hsk : off ≥ s
    · rw [if_pos hsk] at hw
      have := ih (i + 1) (off - s) lim hdrop.symm (by omega) hl (by omega) w hw
      omega
    · rw [if_neg hsk] at hw
      by_cases hle : lim - min (s - off) lim ≤ 0
      · rw [planWindows_nil_of_lim _ _ _ _ hle] at hw
        simp only [List.getLast?_singleton, Option.some.injEq] at hw
        rw [← hw]
        simp only
        omega
      · cases hrest : planWindows (i + 1) rest 0 (lim - min (s - off) lim) with
        | nil =>
          -- no part is left although bytes are: impossible inside the file
          exfalso
          cases rest with
          | nil => simp at hsum; omega
          | cons s2 rest2 =>
            have hs2 : 0 < s2 := by
              apply hpos
              have : s2 ∈ full.drop i := by rw [← hsub]; simp
              exact List.mem_of_mem_drop this
            simp only [planWindows] at hrest
            rw [if_neg hle, if_neg (by omega)] at hrest
            exact List.noConfusion hrest
        | cons v vs =>
          rw [hrest, List.getLast?_cons_cons] at hw
          rw [← hrest] at hw
          have := ih (i + 1) 0 (lim - min (s - off) lim) hdrop.symm (le_refl 0) (by omega)
            (by omega) w hw
          omega

/-- A complete run on a fault-free backend opens exactly the planned windows. -/
theorem runReader_windows (B : Backend σ) (rem : σ → List Byte) (plain : List (List Byte))
    (D : Delivers B rem plain) (chunks : List Part) (hs : SizesMatch chunks plain)
    (offset limit : Int) (ho : 0 ≤ offset) (hl : 0 ≤ limit) (key : String) (bufs : List Nat)
    (hb : ∀ k ∈ bufs, 0 < k) (hn : limit < (bufs.length : Int)) :
    ∃ out tr, runReader B offset limit chunks key bufs =
        Except.ok (Except.ok (out, some GoError.EOF, tr)) ∧
      openedWindows tr = planWindows 0 (chunks.map Part.Size) offset limit := by
  rw [hs]
  obtain ⟨r, h1, h2, h3⟩ := NewDecryptedReader_spec B rem plain D chunks hs offset limit ho hl key
  rcases h3 with ⟨_, hd⟩ | I
  · cases bufs with
    | nil => simp at hn; omega
    | cons k ks =>
      refine ⟨[], r.trace, ?_, hd.wins⟩
      simp only [runReader, h1, readAll_of_done B r hd.err k ks]
  · obtain ⟨out, e, r1, rest, g1, g2, g3, g4⟩ := readAll_spec B rem plain D _ bufs r _ I hb
    rcases g4 with ⟨_, I1, c⟩ | ⟨a, _, d⟩
    · exfalso
      have h4 := Inv_todo_length I1
      have h5 : (0 : Int) ≤ (rest.length : Int) := Int.natCast_nonneg _
      have : (bufs.length : Int) ≤ (out.length : Int) := by exact_mod_cast c
      omega
    · refine ⟨out, r1.trace, ?_, d.wins⟩
      simp only [runReader, h1, g1, a]

/-- C2. For parts of positive sizes, `offset ≥ 0`, `limit ≥ 1` and `offset + limit` at most the
sum of the sizes, a complete run of the reader on a fault-free backend (built by
`NewDecryptedReader`, then read to `io.EOF`) opens, in order, the windows of the chunk locator
for `[start, end] = [offset, offset + limit - 1]`.  The first window is that of the first part
`i` with `acc + s_i > start` and starts at in-part offset `start - acc`, so a start on a part
boundary opens the later part at offset 0; every later window starts at offset 0; every window
but the last has `count = s_i - off_i`; and the last window ends at in-part position
`end - acc_tail` inclusive. -/
theorem decryptedReader_opens_locator_windows (B : Backend σ) (rem : σ → List Byte)
    (plain : List (List Byte)) (D : Delivers B rem plain) (chunks : List Part)
    (hs : SizesMatch chunks plain) (hpos : ∀ s ∈ chunks.map Part.Size, 0 < s)
    (offset limit : Int) (ho : 0 ≤ offset) (hl : 1 ≤ limit)
    (hsum : offset + limit ≤ (chunks.map Part.Size).sum) (key : String) (bufs : List Nat)
    (hb : ∀ k ∈ bufs, 0 < k) (hn : limit < (bufs.length : Int)) :
    ∃ out tr, runReader B offset limit chunks key bufs =
        Except.ok (Except.ok (out, some GoError.EOF, tr)) ∧
      openedWindows tr =
        chunkLocator offset (offset + limit - 1) 0 0 (chunks.map Part.Size) ∧
      (∃ w rest, openedWindows tr = w :: rest ∧
        (∀ j, j < w.i → accAt (chunks.map Part.Size) (j + 1) ≤ offset) ∧
        offset < accAt (chunks.map Part.Size) (w.i + 1) ∧
        w.off = offset - accAt (chunks.map Part.Size) w.i ∧
        ∀ v ∈ rest, v.off = 0) ∧
      (∀ j w, j + 1 < (openedWindows tr).length → (openedWindows tr)[j]? = some w →
        w.count = (chunks.map Part.Size).getD w.i 0 - w.off) ∧
      (∀ w, (openedWindows tr).getLast? = some w →
        w.off + w.count - 1 = offset + limit - 1 - accAt (chunks.map Part.Size) w.i) := by
  obtain ⟨out, tr, h1, h2⟩ := runReader_windows B rem plain D chunks hs offset limit ho
    (by omega) key bufs hb hn
  have hacc0 : accAt (chunks.map Part.Size) 0 = 0 := rfl
  refine ⟨out, tr, h1, ?_, ?_, ?_, ?_⟩
  · rw [h2]
    exact planWindows_eq_chunkLocator offset (offset + limit - 1) (by omega) _ 0 0 offset limit
      hpos (by omega) (by intro _; omega) (by intro h; omega)
  · obtain ⟨w, rest, g1, g2, g3, g4, g5⟩ := planWindows_head (chunks.map Part.Size) hpos
      (chunks.map Part.Size) 0 offset limit rfl ho (by omega) (by omega)
    rw [hacc0] at g2 g3 g4
    refine ⟨w, rest, by rw [h2, g1], ?_, by omega, by omega, g5⟩
    intro j hj
    have := accAt_mono (chunks.map Part.Size) hpos (j + 1) w.i (by omega)
    omega
  · intro j w hj hw
    rw [h2] at hj hw
    exact planWindows_inner_count (chunks.map Part.Size) (chunks.map Part.Size) 0 offset limit
      rfl j hj w hw
  · intro w hw
    rw [h2] at hw
    have := planWindows_last (chunks.map Part.Size) hpos (chunks.map Part.Size) 0 offset limit
      rfl ho (by omega) hsum w hw
    rw [hacc0] at this
    omega

/-- Witness for C2: parts of sizes 3 and 2, offset 3 (a part boundary), limit 2: the only
window opened is that of part 1 at offset 0. -/
theorem decryptedReader_opens_locator_windows_witness :
    ∃ out tr, runReader (sliceBackend [[1, 2, 3], [4, 5]] 2 true) 3 2
        (partsOf [[1, 2, 3], [4, 5]]) "" [4, 4, 4] =
        Except.ok (Except.ok (out, some GoError.EOF, tr)) ∧
      openedWindows tr =
        chunkLocator 3 (3 + 2 - 1) 0 0 ((partsOf [[1, 2, 3], [4, 5]]).map Part.Size) ∧
      (∃ w rest, openedWindows tr = w :: rest ∧
        (∀ j, j < w.i → accAt ((partsOf [[1, 2, 3], [4, 5]]).map Part.Size) (j + 1) ≤ 3) ∧
        3 < accAt ((partsOf [[1, 2, 3], [4, 5]]).map Part.Size) (w.i + 1) ∧
        w.off = 3 - accAt ((partsOf [[1, 2, 3], [4, 5]]).map Part.Size) w.i ∧
        ∀ v ∈ rest, v.off = 0) ∧
      (∀ j w, j + 1 < (openedWindows tr).length → (openedWindows tr)[j]? = some w →
        w.count = ((partsOf [[1, 2, 3], [4, 5]]).map Part.Size).getD w.i 0 - w.off) ∧
      (∀ w, (openedWindows tr).getLast? = some w →
        w.off + w.count - 1 =
          3 + 2 - 1 - accAt ((partsOf [[1, 2, 3], [4, 5]]).map Part.Size) w.i) :=
  decryptedReader_opens_locator_windows (sliceBackend [[1, 2, 3], [4, 5]] 2 true) (fun s => s)
    [[1, 2, 3], [4, 5]] (sliceBackend_delivers _ 2 true) (partsOf [[1, 2, 3], [4, 5]])
    (sizesMatch_partsOf _) (by decide) 3 2 (by decide) (by decide) (by decide) "" [4, 4, 4]
    (by decide) (by decide)

/-! ## Decrypted reader: at most one sub-stream is open (C4) -/

theorem heldFrom_append (b : Bool) (xs ys : List Event) :
    heldFrom b (xs ++ ys) = (heldFrom b xs).bind fun b1 => heldFrom b1 ys := by
  induction xs generalizing b with
  | nil => rfl
  | cons e es ih =>
    cases e with
    | opened i off count =>
      cases b
      · simp only [List.cons_append, heldFrom]
        exact ih true
      · simp [heldFrom]
    | closed =>
      cases b
      · simp [heldFrom]
      · simp only [List.cons_append, heldFrom]
        exact ih false

theorem held_closeEvents (r : decrpytedReader σ) (h : held r.trace = some r.reader.isSome) :
    held (r.trace ++ closeEvents r) = some false := by
  unfold held at h ⊢
  rw [heldFrom_append, h]
  unfold closeEvents
  cases r.reader <;> rfl

theorem Close_eq (B : Backend σ) (r : decrpytedReader σ) :
    Close B r = (match r.reader with | some s => B.close s | none => none,
      { r with reader := none, trace := r.trace ++ closeEvents r }) := by
  obtain ⟨chunks, limit, count, pos, reader, err, key, trace⟩ := r
  cases reader with
  | none => simp [Close, closeEvents]
  | some s => simp [Close, closeEvents]

/-- The four ways in which `nextChunk` returns, on any backend. -/
theorem nextChunk_shape (B : Backend σ) (r : decrpytedReader σ) (offset : Int) :
    ((nextChunk B r offset).2 = r ∧ (nextChunk B r offset).1.1 = -1 ∧
        (nextChunk B r offset).1.2 ≠ none) ∨
    ((nextChunk B r offset).2 = { r with pos := r.pos + 1 } ∧ r.pos < r.chunks.length ∧
        0 ≤ (nextChunk B r offset).1.1 ∧ (nextChunk B r offset).1.2 ≠ none) ∨
    ((nextChunk B r offset).2 =
        { r with pos := r.pos + 1, reader := none, trace := r.trace ++ closeEvents r } ∧
        r.pos < r.chunks.length ∧ (nextChunk B r offset).1.1 = -1 ∧
        (nextChunk B r offset).1.2 ≠ none) ∨
    (∃ s c i, (nextChunk B r offset).2 =
        { r with pos := r.pos + 1, reader := some s, count := c,
                 trace := r.trace ++ closeEvents r ++ [Event.opened i offset c] } ∧
        r.pos < r.chunks.length ∧ 0 < c ∧ (nextChunk B r offset).1 = (offset, none) ∧
        0 ≤ offset) := by
  obtain ⟨chunks, limit, count, pos, reader, err, key, trace⟩ := r
  cases err with
  | some e => left; exact ⟨rfl, rfl, by simp [nextChunk]⟩
  | none =>
    simp only [nextChunk]
    by_cases hend : pos ≥ chunks.length ∨ limit ≤ 0 ∨ offset < 0
    · rw [if_pos hend]; left; exact ⟨rfl, rfl, by simp⟩
    · rw [if_neg hend]
      by_cases hsk : offset ≥ (chunks.getD pos ⟨0, ""⟩).Size
      · rw [if_pos hsk]
        right; left
        exact ⟨rfl, by omega, by show 0 ≤ offset - _; omega, by simp⟩
      · rw [if_neg hsk, Close_eq]
        simp only
        cases hc : (match reader with | some s => B.close s | none => none) with
        | some e => right; right; left; exact ⟨rfl, by omega, rfl, by simp⟩
        | none =>
          simp only
          cases hn : B.newCipher key (chunks.getD (pos + 1 - 1) ⟨0, ""⟩).Salt with
          | some e => right; right; left; exact ⟨rfl, by omega, rfl, by simp⟩
          | none =>
            simp only
            cases ho : B.decryptDataSeek (pos + 1 - 1) offset
                (if limit < (chunks.getD pos ⟨0, ""⟩).Size - offset then limit
                  else (chunks.getD pos ⟨0, ""⟩).Size - offset) with
            | error e => right; right; left; exact ⟨rfl, by omega, rfl, by simp⟩
            | ok s =>
              right; right; right
              refine ⟨s, _, _, rfl, by omega, ?_, rfl, by omega⟩
              split <;> omega

theorem held_opened (tr : List Event) (i : Nat) (off c : Int) (h : held tr = some false) :
    held (tr ++ [Event.opened i off c]) = some true := by
  unfold held at h ⊢
  rw [heldFrom_append, h]
  rfl

/-- A call of `nextChunk` from a sound state that holds no bytes, on any backend: the state
stays sound, and the call either returns a negative offset or moves on by one part. -/
theorem nextChunk_sound (B : Backend σ) (r : decrpytedReader σ) (offset : Int) (S : Sound r)
    (hc : r.count ≤ 0) :
    Sound (nextChunk B r offset).2 ∧ (nextChunk B r offset).2.chunks = r.chunks ∧
      ((nextChunk B r offset).1.1 < 0 ∨ (nextChunk B r offset).2.pos = r.pos + 1) ∧
      ((nextChunk B r offset).1.2 = none → 0 < (nextChunk B r offset).2.count) ∧
      ((nextChunk B r offset).1.2 ≠ none → (nextChunk B r offset).2.count ≤ 0) := by
  rcases nextChunk_shape B r offset with ⟨h1, h2, h3⟩ | ⟨h1, h2, h3, h4⟩ | ⟨h1, h2, h3, h4⟩ |
    ⟨s, c, i, h1, h2, h3, h4, h5⟩
  · rw [h1]
    exact ⟨S, rfl, Or.inl (by omega), fun h => absurd h h3, fun _ => hc⟩
  · rw [h1]
    refine ⟨⟨S.trace, S.reader, ?_⟩, rfl, Or.inr rfl, fun h => absurd h h4, fun _ => hc⟩
    show r.pos + 1 ≤ r.chunks.length
    omega
  · rw [h1]
    refine ⟨⟨held_closeEvents r S.trace, ?_, ?_⟩, rfl, Or.inl (by omega),
      fun h => absurd h h4, fun _ => hc⟩
    · intro h
      have : 0 < r.count := h
      omega
    · show r.pos + 1 ≤ r.chunks.length
      omega
  · rw [h1, h4]
    refine ⟨⟨?_, fun _ => rfl, ?_⟩, rfl, Or.inr rfl, fun _ => h3, fun h => absurd rfl h⟩
    · exact held_opened _ i offset c (held_closeEvents r S.trace)
    · show r.pos + 1 ≤ r.chunks.length
      omega

/-- The loop of `Read` returns within `len(chunks) + 1` iterations on any backend. -/
theorem readLoop_sound (B : Backend σ) :
    ∀ (fuel : Nat) (r : decrpytedReader σ), Sound r → r.chunks.length + 1 ≤ fuel + r.pos →
      ∃ res r1, readLoop B fuel r = Except.ok (res, r1) ∧ Sound r1 ∧
        r1.chunks = r.chunks ∧ (res = none → 0 < r1.count) := by
  intro fuel
  induction fuel with
  | zero =>
    intro r S hf
    have := S.pos
    omega
  | succ n ih =>
    intro r S hf
    simp only [readLoop]
    by_cases hc : r.count ≤ 0
    · rw [if_pos hc]
      obtain ⟨h1, h2, h3, h4, h5⟩ := nextChunk_sound B r 0 S hc
      by_cases hneg : (nextChunk B r 0).1.1 < 0
      · rw [if_pos hneg]
        exact ⟨_, _, rfl, ⟨h1.trace, h1.reader, h1.pos⟩, h2, fun h => by simp at h⟩
      · rw [if_neg hneg]
        have hp : (nextChunk B r 0).2.pos = r.pos + 1 := by
          rcases h3 with h | h
          · exact absurd h hneg
          · exact h
        obtain ⟨res, r1, g1, g2, g3, g4⟩ := ih (nextChunk B r 0).2 h1 (by rw [h2, hp]; omega)
        exact ⟨res, r1, g1, g2, by rw [g3, h2], g4⟩
    · rw [if_neg hc]
      exact ⟨none, r, rfl, S, rfl, fun _ => by omega⟩

/-- A `Read` from a sound state returns, on any backend, and leaves a sound state. -/
theorem Read_sound (B : Backend σ) (r : decrpytedReader σ) (k : Nat) (S : Sound r) :
    ∃ res r1, Read B r k = Except.ok (res, r1) ∧ Sound r1 := by
  unfold Read
  cases he : r.err with
  | some e => exact ⟨_, _, rfl, S⟩
  | none =>
    simp only
    by_cases hl : r.limit ≤ 0
    · rw [if_pos hl]
      exact ⟨_, _, rfl, ⟨S.trace, S.reader, S.pos⟩⟩
    · rw [if_neg hl]
      obtain ⟨res, r1, g1, g2, g3, g4⟩ := readLoop_sound B (r.chunks.length + 1) r S (by omega)
      rw [g1]
      cases res with
      | some e => exact ⟨_, _, rfl, g2⟩
      | none =>
        simp only
        have hsome := g2.reader (g4 rfl)
        cases hr : r1.reader with
        | none => rw [hr] at hsome; simp at hsome
        | some s =>
          simp only
          have htr : held r1.trace = some true := by
            have := g2.trace
            rw [hr] at this
            exact this
          split
          · exact ⟨_, _, rfl, ⟨htr, fun _ => rfl, g2.pos⟩⟩
          · exact ⟨_, _, rfl, ⟨htr, fun _ => rfl, g2.pos⟩⟩

theorem readMany_sound (B : Backend σ) :
    ∀ (ks : List Nat) (r : decrpytedReader σ), Sound r →
      ∃ r1, readMany B ks r = Except.ok r1 ∧ Sound r1 := by
  intro ks
  induction ks with
  | nil => intro r S; exact ⟨r, rfl, S⟩
  | cons k ks ih =>
    intro r S
    obtain ⟨res, r1, h1, h2⟩ := Read_sound B r k S
    obtain ⟨r2, g1, g2⟩ := ih r1 h2
    exact ⟨r2, by simp only [readMany, h1, g1], g2⟩

/-- The seek loop returns within `len(chunks) + 1` iterations on any backend. -/
theorem seekLoop_sound (B : Backend σ) :
    ∀ (fuel : Nat) (r : decrpytedReader σ) (offset : Int) (err : Option GoError), Sound r →
      r.count ≤ 0 → r.chunks.length + 1 ≤ fuel + r.pos →
      ∃ e r1, seekLoop B fuel r offset err = Except.ok (e, r1) ∧ Sound r1 := by
  intro fuel
  induction fuel with
  | zero =>
    intro r _ _ S _ hf
    have := S.pos
    omega
  | succ n ih =>
    intro r offset err S hc hf
    by_cases hcond : offset ≥ 0 ∧ err ≠ none
    · simp only [seekLoop]
      rw [if_pos hcond]
      obtain ⟨h1, h2, h3, h4, h5⟩ := nextChunk_sound B r offset S hc
      by_cases hnext : (nextChunk B r offset).1.1 ≥ 0 ∧ (nextChunk B r offset).1.2 ≠ none
      · have hp : (nextChunk B r offset).2.pos = r.pos + 1 := by
          rcases h3 with h | h
          · omega
          · exact h
        exact ih _ _ _ h1 (h5 hnext.2) (by rw [h2, hp]; omega)
      · exact ⟨_, _, seekLoop_exit B n _ _ _ hnext, h1⟩
    · exact ⟨_, _, seekLoop_exit B (n + 1) r offset err hcond, S⟩

/-- The constructor returns on any backend, and a reader it returns is in a sound state. -/
theorem NewDecryptedReader_sound (B : Backend σ) (offset limit : Int) (chunks : List Part)
    (key : String) :
    ∃ res, NewDecryptedReader B offset limit chunks key = Except.ok res ∧
      ∀ r, res = Except.ok r → Sound r := by
  obtain ⟨e, r1, h1, h2⟩ := seekLoop_sound B (chunks.length + 1)
    { chunks := chunks, limit := limit, count := 0, pos := 0, reader := none, err := none,
      encryptionKey := key, trace := [] } offset (some GoError.EOF)
    ⟨rfl, fun h => by simp at h, Nat.zero_le _⟩ (le_refl 0)
    (by show chunks.length + 1 ≤ chunks.length + 1 + 0; omega)
  unfold NewDecryptedReader
  simp only [h1]
  cases e with
  | none =>
    refine ⟨_, rfl, ?_⟩
    intro r hr
    cases hr
    exact ⟨h2.trace, h2.reader, h2.pos⟩
  | some e =>
    cases e with
    | EOF =>
      refine ⟨_, rfl, ?_⟩
      intro r hr
      cases hr
      exact ⟨h2.trace, h2.reader, h2.pos⟩
    | other msg =>
      refine ⟨_, rfl, ?_⟩
      intro r hr
      cases hr

theorem heldFrom_prefix (b : Bool) (pre post : List Event) (b2 : Bool)
    (h : heldFrom b (pre ++ post) = some b2) :
    ∃ b1, heldFrom b pre = some b1 ∧ heldFrom b1 post = some b2 := by
  rw [heldFrom_append] at h
  cases hp : heldFrom b pre with
  | none => rw [hp] at h; simp at h
  | some b1 => rw [hp] at h; exact ⟨b1, rfl, h⟩

theorem openCount_of_heldFrom :
    ∀ (tr : List Event) (b b2 : Bool), heldFrom b tr = some b2 →
      openCount tr = (if b2 = true then 1 else 0) - (if b = true then 1 else 0) := by
  intro tr
  induction tr with
  | nil =>
    intro b b2 h
    simp only [heldFrom, Option.some.injEq] at h
    rw [h]
    simp [openCount]
  | cons e es ih =>
    intro b b2 h
    cases e with
    | opened i off c =>
      cases b
      · simp only [heldFrom] at h
        have := ih true b2 (by simpa using h)
        simp only [openCount, this]
        simp
      · simp [heldFrom] at h
    | closed =>
      cases b
      · simp [heldFrom] at h
      · simp only [heldFrom] at h
        have := ih false b2 (by simpa using h)
        simp only [openCount, this]
        simp

/-- C4. In every run of the reader, on any backend (the constructor, then any number of
`Read`s with buffers of any lengths, whatever they return), the constructor and every `Read`
return, and the calls on sub-streams are disciplined: after every prefix of the trace of
sub-stream calls the number of open sub-streams is 0 or 1, and it is 0 at every point where a
sub-stream is opened, so that `Close` has been called on every sub-stream opened earlier. -/
theorem decryptedReader_closes_before_open (B : Backend σ) (offset limit : Int)
    (chunks : List Part) (key : String) (bufs : List Nat) :
    ∃ res, NewDecryptedReader B offset limit chunks key = Except.ok res ∧
      match res with
      | Except.error _ => True
      | Except.ok r0 =>
        ∃ r1, readMany B bufs r0 = Except.ok r1 ∧
          ∀ pre post, r1.trace = pre ++ post →
            0 ≤ openCount pre ∧ openCount pre ≤ 1 ∧
              ∀ i off c rest, post = Event.opened i off c :: rest → openCount pre = 0 := by
  obtain ⟨res, h1, h2⟩ := NewDecryptedReader_sound B offset limit chunks key
  refine ⟨res, h1, ?_⟩
  cases res with
  | error e => trivial
  | ok r0 =>
    obtain ⟨r1, g1, g2⟩ := readMany_sound B bufs r0 (h2 r0 rfl)
    refine ⟨r1, g1, ?_⟩
    intro pre post hsplit
    have ht := g2.trace
    unfold held at ht
    rw [hsplit] at ht
    obtain ⟨b1, e1, e2⟩ := heldFrom_prefix false pre post _ ht
    have hcount := openCount_of_heldFrom pre false b1 e1
    refine ⟨?_, ?_, ?_⟩
    · rw [hcount]; cases b1 <;> simp
    · rw [hcount]; cases b1 <;> simp
    · intro i off c rest hpost
      rw [hpost] at e2
      cases b1
      · rw [hcount]; simp
      · simp [heldFrom] at e2

/-! ## Decrypted reader: zero-byte reads and the end of the stream (C3) -/

/-- When the loop of `Read` returns from `Read`, on any backend and from any state, the error
it returns is not nil and is recorded. -/
theorem readLoop_returns_error (B : Backend σ) :
    ∀ (fuel : Nat) (r : decrpytedReader σ) (err : Option GoError) (r1 : decrpytedReader σ),
      readLoop B fuel r = Except.ok (some err, r1) → err ≠ none ∧ r1.err = err := by
  intro fuel
  induction fuel with
  | zero =>
    intro r err r1 h
    simp only [readLoop] at h
    split at h <;> simp at h
  | succ n ih =>
    intro r err r1 h
    simp only [readLoop] at h
    split at h
    · split at h
      · rename_i hneg
        simp only [Except.ok.injEq, Prod.mk.injEq, Option.some.injEq] at h
        obtain ⟨h1, h2⟩ := h
        refine ⟨?_, by rw [← h2, ← h1]⟩
        rw [← h1]
        rcases nextChunk_shape B r 0 with ⟨_, _, g⟩ | ⟨_, _, g, _⟩ | ⟨_, _, _, g⟩ |
          ⟨s, c, i, _, _, _, g, _⟩
        · exact g
        · omega
        · exact g
        · rw [g] at hneg
          simp at hneg
      · exact ih _ _ _ h
    · simp at h

/-- C3 fails as stated: a part of recorded size 3 whose sub-stream ends at once (it returns no
byte and `io.EOF` on every read), offset 0, limit 2.  The reader is built, and every `Read`
with a buffer of length 4 returns no byte and a nil error, while `limit` stays positive. -/
theorem decryptedReader_zero_read_without_error :
    ∃ r0 r1, NewDecryptedReader (sliceBackend [[]] 1 false) 0 2 [⟨3, ""⟩] "" =
        Except.ok (Except.ok r0) ∧
      Read (sliceBackend [[]] 1 false) r0 4 = Except.ok (([], none), r1) ∧
      Read (sliceBackend [[]] 1 false) r1 4 = Except.ok (([], none), r1) ∧
      r1.limit = 2 ∧ r1.count = 2 :=
  ⟨_, _, rfl, rfl, rfl, rfl, rfl⟩

/-- C3 as amended.  On any backend, from any state and with any buffer, a `Read` that returns
`n = 0` returns a non-nil error, records it, and every later `Read` returns `(0, that error)`
again without changing the reader, except in one case: the sub-stream's own `Read` returned no
byte together with a nil error or `io.EOF` while `limit > 0`; then `Read` returns `(0, nil)`.
On a fault-free backend whose sub-streams deliver their windows that case does not arise: in
every state the reader reaches (built by `NewDecryptedReader` with `offset ≥ 0` and
`limit ≥ 0`, then read with non-empty buffers up to the first error or until the buffers are
used up), a `Read` with a non-empty buffer that returns `n = 0` returns a non-nil error that is
recorded and returned by every later `Read`, and once `limit` bytes have been delivered the next
`Read` returns `(0, io.EOF)`. -/
theorem decryptedReader_zero_read_is_terminal (B : Backend σ) (rem : σ → List Byte)
    (plain : List (List Byte)) (D : Delivers B rem plain) (chunks : List Part)
    (hs : SizesMatch chunks plain) (offset limit : Int) (ho : 0 ≤ offset) (hl : 0 ≤ limit)
    (key : String) (bufs : List Nat) (hb : ∀ k ∈ bufs, 0 < k) (k : Nat) (hk : 0 < k) :
    (∃ r0 out e r1 out1 e1 r2,
      NewDecryptedReader B offset limit chunks key = Except.ok (Except.ok r0) ∧
      readAll B bufs r0 = Except.ok (out, e, r1) ∧
      Read B r1 k = Except.ok ((out1, e1), r2) ∧
      (out1 = [] → e1 ≠ none ∧ r2.err = e1 ∧
        ∀ k2, Read B r2 k2 = Except.ok (([], e1), r2)) ∧
      ((out.length : Int) = limit → out1 = [] ∧ e1 = some GoError.EOF)) ∧
    (∀ (B0 : Backend σ) (r : decrpytedReader σ) (k0 : Nat) (e : Option GoError)
        (r3 : decrpytedReader σ), Read B0 r k0 = Except.ok (([], e), r3) →
      (e ≠ none ∧ r3.err = e ∧ ∀ k2, Read B0 r3 k2 = Except.ok (([], e), r3)) ∨
        (e = none ∧ 0 < r.limit ∧
          ∃ r1 s, readLoop B0 (r.chunks.length + 1) r = Except.ok (none, r1) ∧
            r1.reader = some s ∧ (B0.read s k0).1 = [] ∧
            ((B0.read s k0).2.1 = none ∨ (B0.read s k0).2.1 = some GoError.EOF))) := by
  refine ⟨?_, ?_⟩
  swap
  · intro B0 r k0 e r3 h
    have hterm : ∀ (x : GoError) (r4 : decrpytedReader σ), r4.err = some x →
        (some x : Option GoError) ≠ none ∧ r4.err = some x ∧
          ∀ k2, Read B0 r4 k2 = Except.ok (([], some x), r4) :=
      fun x r4 hx => ⟨by simp, hx, fun k2 => Read_of_err B0 r4 k2 x hx⟩
    unfold Read at h
    cases he : r.err with
    | some x =>
      rw [he] at h
      simp only [Except.ok.injEq, Prod.mk.injEq, true_and] at h
      obtain ⟨h1, h2⟩ := h
      subst h1 h2
      exact Or.inl (hterm x r he)
    | none =>
      rw [he] at h
      simp only at h
      by_cases hl : r.limit ≤ 0
      · rw [if_pos hl] at h
        simp only [Except.ok.injEq, Prod.mk.injEq, true_and] at h
        obtain ⟨h1, h2⟩ := h
        subst h1 h2
        exact Or.inl (hterm GoError.EOF _ rfl)
      · rw [if_neg hl] at h
        cases hrl : readLoop B0 (r.chunks.length + 1) r with
        | error f => rw [hrl] at h; simp at h
        | ok res =>
          obtain ⟨res1, r1⟩ := res
          rw [hrl] at h
          cases res1 with
          | some err =>
            simp only [Except.ok.injEq, Prod.mk.injEq, true_and] at h
            obtain ⟨h1, h2⟩ := h
            subst h1 h2
            obtain ⟨g1, g2⟩ := readLoop_returns_error B0 _ r err r1 hrl
            cases err with
            | none => exact absurd rfl g1
            | some x => exact Or.inl (hterm x r1 g2)
          | none =>
            simp only at h
            cases hr : r1.reader with
            | none => rw [hr] at h; simp at h
            | some s =>
              rw [hr] at h
              simp only at h
              by_cases hc : (B0.read s k0).2.1 = none ∨ (B0.read s k0).2.1 = some GoError.EOF
              · rw [if_pos hc] at h
                simp only [Except.ok.injEq, Prod.mk.injEq] at h
                obtain ⟨⟨h1, h2⟩, h3⟩ := h
                cases e with
                | none => exact Or.inr ⟨rfl, by omega, r1, s, rfl, hr, h1, hc⟩
                | some x =>
                  refine Or.inl (hterm x r3 ?_)
                  rw [← h3]
                  exact h2
              · rw [if_neg hc] at h
                simp only [Except.ok.injEq, Prod.mk.injEq] at h
                obtain ⟨⟨h1, h2⟩, h3⟩ := h
                cases e with
                | none => exact absurd (Or.inl h2) hc
                | some x =>
                  refine Or.inl (hterm x r3 ?_)
                  rw [← h3]
                  exact h2
  obtain ⟨r0, h1, h2, h3⟩ := NewDecryptedReader_spec B rem plain D chunks hs offset limit ho hl
    key
  have hdone : ∀ (W : List Window) (r : decrpytedReader σ), Done W r →
      Read B r k = Except.ok (([], some GoError.EOF), r) ∧
      (([] : List Byte) = [] → (some GoError.EOF : Option GoError) ≠ none ∧
        r.err = some GoError.EOF ∧
        ∀ k2, Read B r k2 = Except.ok (([], some GoError.EOF), r)) := by
    intro W r hd
    exact ⟨Read_of_err B r k _ hd.err, fun _ => ⟨by simp, hd.err,
      fun k2 => Read_of_err B r k2 _ hd.err⟩⟩
  have hinv : ∀ (W : List Window) (r : decrpytedReader σ) (todo : List Byte),
      Inv rem plain W r todo →
      ∃ out1 e1 r2, Read B r k = Except.ok ((out1, e1), r2) ∧
        (out1 = [] → e1 ≠ none ∧ r2.err = e1 ∧
          ∀ k2, Read B r2 k2 = Except.ok (([], e1), r2)) ∧
        (r.limit = 0 → out1 = [] ∧ e1 = some GoError.EOF) := by
    intro W r todo I
    obtain ⟨out1, e1, r2, rest, g1, g2, g3, g4⟩ := Read_spec B rem plain D W todo r I k hk
    have hlen := Inv_todo_length I
    refine ⟨out1, e1, r2, g1, ?_, ?_⟩
    · intro hnil
      rcases g4 with ⟨_, b, _⟩ | ⟨a, _, c⟩
      · exact absurd hnil b
      · rw [a]
        exact ⟨by simp, c.err, fun k2 => Read_of_err B r2 k2 _ c.err⟩
    · intro hz
      have hout : out1 = [] := by
        apply List.eq_nil_of_length_eq_zero
        have : out1.length ≤ todo.length := by rw [← g2]; simp
        omega
      refine ⟨hout, ?_⟩
      rcases g4 with ⟨_, b, _⟩ | ⟨a, _, _⟩
      · exact absurd hout b
      · exact a
  rcases h3 with ⟨_, hd⟩ | I
  · -- the constructor found nothing to deliver
    obtain ⟨g1, g2⟩ := hdone _ r0 hd
    cases bufs with
    | nil =>
      exact ⟨r0, [], none, r0, [], some GoError.EOF, r0, h1, rfl, g1, g2, fun _ => ⟨rfl, rfl⟩⟩
    | cons b bs =>
      exact ⟨r0, [], some GoError.EOF, r0, [], some GoError.EOF, r0, h1,
        readAll_of_done B r0 hd.err b bs, g1, g2, fun _ => ⟨rfl, rfl⟩⟩
  · obtain ⟨out, e, r1, rest, g1, g2, g3, g4⟩ := readAll_spec B rem plain D _ bufs r0 _ I hb
    rcases g4 with ⟨_, I1, _⟩ | ⟨_, _, d⟩
    · obtain ⟨out1, e1, r2, f1, f2, f3⟩ := hinv _ r1 rest I1
      exact ⟨r0, out, e, r1, out1, e1, r2, h1, g1, f1, f2, fun h => f3 (by rw [g3, h2]; omega)⟩
    · obtain ⟨f1, f2⟩ := hdone _ r1 d
      exact ⟨r0, out, e, r1, [], some GoError.EOF, r1, h1, g1, f1, f2, fun _ => ⟨rfl, rfl⟩⟩

/-- Witness for C3 as amended: two parts `[1, 2, 3]` and `[4, 5]`, offset 1, limit 3, two
reads, then the read under test. -/
theorem decryptedReader_zero_read_is_terminal_witness :
    (∃ r0 out e r1 out1 e1 r2,
      NewDecryptedReader (sliceBackend [[1, 2, 3], [4, 5]] 2 true) 1 3
        (partsOf [[1, 2, 3], [4, 5]]) "" = Except.ok (Except.ok r0) ∧
      readAll (sliceBackend [[1, 2, 3], [4, 5]] 2 true) [4, 4] r0 = Except.ok (out, e, r1) ∧
      Read (sliceBackend [[1, 2, 3], [4, 5]] 2 true) r1 4 = Except.ok ((out1, e1), r2) ∧
      (out1 = [] → e1 ≠ none ∧ r2.err = e1 ∧
        ∀ k2, Read (sliceBackend [[1, 2, 3], [4, 5]] 2 true) r2 k2 =
          Except.ok (([], e1), r2)) ∧
      ((out.length : Int) = 3 → out1 = [] ∧ e1 = some GoError.EOF)) ∧
    (∀ (B0 : Backend (List Byte)) (r : decrpytedReader (List Byte)) (k0 : Nat)
        (e : Option GoError) (r3 : decrpytedReader (List Byte)),
      Read B0 r k0 = Except.ok (([], e), r3) →
      (e ≠ none ∧ r3.err = e ∧ ∀ k2, Read B0 r3 k2 = Except.ok (([], e), r3)) ∨
        (e = none ∧ 0 < r.limit ∧
          ∃ r1 s, readLoop B0 (r.chunks.length + 1) r = Except.ok (none, r1) ∧
            r1.reader = some s ∧ (B0.read s k0).1 = [] ∧
            ((B0.read s k0).2.1 = none ∨ (B0.read s k0).2.1 = some GoError.EOF))) :=
  decryptedReader_zero_read_is_terminal (sliceBackend [[1, 2, 3], [4, 5]] 2 true) (fun s => s)
    [[1, 2, 3], [4, 5]] (sliceBackend_delivers _ 2 true) (partsOf [[1, 2, 3], [4, 5]])
    (sizesMatch_partsOf _) 1 3 (by decide) (by decide) "" [4, 4] (by decide) 4 (by decide)

/-! ## Range server: the reader is not closed by the handler (C5) -/

theorem copyStage_no_close (cnf : StreamConfig) (env : Env) (req : Request) (file : FileOutFull)
    (client : Nat) (channelUser : String) (start end_ contentLength : Int) :
    Effect.closeReader ∉ copyStage cnf env req file client channelUser start end_
      contentLength := by
  unfold copyStage
  split
  · cases env.getParts client file channelUser with
    | error e => simp
    | ok parts =>
      simp only
      split <;> split <;> simp
  · simp

theorem workerStage_no_close (cnf : StreamConfig) (env : Env) (req : Request)
    (session : UserSession) (file : FileOutFull) (start end_ contentLength : Int) :
    Effect.closeReader ∉ workerStage cnf env req session file start end_ contentLength := by
  unfold workerStage
  cases env.getBotsToken session.UserId file.ChannelID with
  | error e => simp
  | ok tokens =>
    simp only
    split
    · cases env.userWorker session.Session session.UserId with
      | error e => simp
      | ok client => simp [copyStage_no_close]
    · split
      · simp
      · cases env.workerNext (List.take (min (tokens.length : Int) cnf.BgBotsLimit).toNat tokens)
            file.ChannelID with
        | error e => simp
        | ok res =>
          obtain ⟨client, index⟩ := res
          simp only
          split <;> simp [copyStage_no_close]

theorem rangeStage_no_close (cnf : StreamConfig) (env : Env) (req : Request)
    (session : UserSession) (file : FileOutFull) :
    Effect.closeReader ∉ rangeStage cnf env req session file := by
  have hh : ∀ s e, Effect.closeReader ∉ headerStage cnf env req session file s e := by
    intro s e
    unfold headerStage
    simp [workerStage_no_close]
  unfold rangeStage
  split
  · simp [hh]
  · cases env.rangeParse req.rangeHeader file.Size with
    | error e => cases e <;> simp
    | ok ranges =>
      simp only
      split
      · simp
      · cases ranges with
        | nil => simp
        | cons r0 rest => simp [hh]

theorem onlyCopies_cons (e : Effect) (tr : List Effect)
    (h1 : ∀ n, e ≠ Effect.newDecryptedReader n) (h2 : ∀ n, e ≠ Effect.newLinearReader n)
    (h : OnlyCopies tr) : OnlyCopies (e :: tr) := by
  intro rest hr
  cases e <;> first
    | exact h rest (by simpa [afterReader] using hr)
    | exact absurd rfl (h1 _)
    | exact absurd rfl (h2 _)

theorem onlyCopies_of_none (tr : List Effect) (h : afterReader tr = none) : OnlyCopies tr := by
  intro rest hr
  rw [h] at hr
  exact Option.noConfusion hr

theorem copyStage_onlyCopies (cnf : StreamConfig) (env : Env) (req : Request)
    (file : FileOutFull) (client : Nat) (channelUser : String)
    (start end_ contentLength : Int) :
    OnlyCopies (copyStage cnf env req file client channelUser start end_ contentLength) := by
  unfold copyStage
  split
  · cases env.getParts client file channelUser with
    | error e => exact onlyCopies_of_none _ rfl
    | ok parts =>
      simp only
      intro rest hr
      split at hr <;> split at hr <;>
        simp only [List.cons_append, List.nil_append, afterReader, Option.some.injEq] at hr <;>
        subst hr <;> simp
  · exact onlyCopies_of_none _ rfl

theorem workerStage_onlyCopies (cnf : StreamConfig) (env : Env) (req : Request)
    (session : UserSession) (file : FileOutFull) (start end_ contentLength : Int) :
    OnlyCopies (workerStage cnf env req session file start end_ contentLength) := by
  unfold workerStage
  cases env.getBotsToken session.UserId file.ChannelID with
  | error e => exact onlyCopies_of_none _ rfl
  | ok tokens =>
    simp only
    refine onlyCopies_cons _ _ (by simp) (by simp) ?_
    split
    · cases env.userWorker session.Session session.UserId with
      | error e => exact onlyCopies_of_none _ rfl
      | ok client =>
        simp only [List.cons_append, List.nil_append]
        exact onlyCopies_cons _ _ (by simp) (by simp)
          (onlyCopies_cons _ _ (by simp) (by simp) (copyStage_onlyCopies _ _ _ _ _ _ _ _ _))
    · split
      · exact onlyCopies_of_none _ rfl
      · cases env.workerNext (List.take (min (tokens.length : Int) cnf.BgBotsLimit).toNat tokens)
            file.ChannelID with
        | error e => exact onlyCopies_of_none _ rfl
        | ok res =>
          obtain ⟨client, index⟩ := res
          simp only [List.cons_append, List.nil_append]
          refine onlyCopies_cons _ _ (by simp) (by simp)
            (onlyCopies_cons _ _ (by simp) (by simp) ?_)
          split
          · exact onlyCopies_of_none _ rfl
          · exact copyStage_onlyCopies _ _ _ _ _ _ _ _ _

theorem rangeStage_onlyCopies (cnf : StreamConfig) (env : Env) (req : Request)
    (session : UserSession) (file : FileOutFull) :
    OnlyCopies (rangeStage cnf env req session file) := by
  have hh : ∀ s e, OnlyCopies (headerStage cnf env req session file s e) := by
    intro s e
    unfold headerStage
    simp only [List.cons_append, List.nil_append]
    exact onlyCopies_cons _ _ (by simp) (by simp)
      (onlyCopies_cons _ _ (by simp) (by simp)
        (onlyCopies_cons _ _ (by simp) (by simp)
          (onlyCopies_cons _ _ (by simp) (by simp)
            (onlyCopies_cons _ _ (by simp) (by simp) (workerStage_onlyCopies _ _ _ _ _ _ _ _)))))
  unfold rangeStage
  refine onlyCopies_cons _ _ (by simp) (by simp) ?_
  split
  · exact onlyCopies_cons _ _ (by simp) (by simp) (hh _ _)
  · cases env.rangeParse req.rangeHeader file.Size with
    | error e => cases e <;> exact onlyCopies_of_none _ rfl
    | ok ranges =>
      simp only
      split
      · exact onlyCopies_of_none _ rfl
      · cases ranges with
        | nil => exact onlyCopies_of_none _ rfl
        | cons r0 rest =>
          exact onlyCopies_cons _ _ (by simp) (by simp)
            (onlyCopies_cons _ _ (by simp) (by simp) (hh _ _))

/-- C5 fails as stated: in the first scenario (`GET`, no `Range`) a reader is constructed and
copied from, and the handler returns without any `Close` of it. -/
theorem GetFileStream_returns_with_reader_open :
    Effect.newLinearReader 100 ∈
        GetFileStream scenarioCnf scenarioEnv (scenarioRequest "f1" "h1" "GET" "") ∧
      (GetFileStream scenarioCnf scenarioEnv (scenarioRequest "f1" "h1" "GET" "")).getLast? =
        some (Effect.copyN false 100) ∧
      Effect.closeReader ∉
        GetFileStream scenarioCnf scenarioEnv (scenarioRequest "f1" "h1" "GET" "") := by
  decide

/-- C5 as amended: on no exit path does `GetFileStream` call `Close` on the reader it
constructs.  Whatever the configuration, the collaborators and the request, no `Close` of the
reader is among the calls the handler makes, and on every path on which a reader is constructed
the only call that follows is the copy from it (and the panic when the reader is nil): the
handler returns leaving the reader open. -/
theorem GetFileStream_never_closes_reader (cnf : StreamConfig) (env : Env) (req : Request) :
    Effect.closeReader ∉ GetFileStream cnf env req ∧ OnlyCopies (GetFileStream cnf env req) := by
  unfold GetFileStream
  split
  · exact ⟨by simp, onlyCopies_of_none _ rfl⟩
  · cases env.getSessionByHash req.hash with
    | error e => exact ⟨by simp, onlyCopies_of_none _ rfl⟩
    | ok session =>
      simp only
      cases env.cacheGet ("files:" ++ req.fileID) with
      | ok file =>
        simp only
        exact ⟨by simp [rangeStage_no_close],
          onlyCopies_cons _ _ (by simp) (by simp)
            (onlyCopies_cons _ _ (by simp) (by simp) (rangeStage_onlyCopies _ _ _ _ _))⟩
      | error e =>
        simp only
        cases GetFileByID env req.fileID with
        | error appErr =>
          exact ⟨by simp, onlyCopies_of_none _ rfl⟩
        | ok file =>
          simp only
          exact ⟨by simp [rangeStage_no_close],
            onlyCopies_cons _ _ (by simp) (by simp)
              (onlyCopies_cons _ _ (by simp) (by simp)
                (onlyCopies_cons _ _ (by simp) (by simp)
                  (onlyCopies_cons _ _ (by simp) (by simp) (rangeStage_onlyCopies _ _ _ _ _))))⟩

/-! ## Session string (C6) -/

theorem base64URLEncode_length :
    ∀ (n : Nat) (l : List Byte), l.length ≤ n →
      (base64URLEncode l).length = 4 * ((l.length + 2) / 3) := by
  intro n
  induction n using Nat.strong_induction_on with
  | _ n ih =>
    intro l hl
    match l, hl with
    | [], _ => rfl
    | [_], _ => simp [base64URLEncode]
    | [_, _], _ => simp [base64URLEncode]
    | a :: b :: c :: rest, hl =>
      simp only [List.length_cons] at hl
      have := ih rest.length (by omega) rest (le_refl _)
      simp only [base64URLEncode, List.length_cons, this]
      omega

theorem pack32BinaryIP4_dc1 : pack32BinaryIP4 "149.154.175.53" = [149, 154, 175, 53] := by
  decide

theorem pack32BinaryIP4_dc2 : pack32BinaryIP4 "149.154.167.51" = [149, 154, 167, 51] := by
  decide

theorem pack32BinaryIP4_dc3 : pack32BinaryIP4 "149.154.175.100" = [149, 154, 175, 100] := by
  decide

theorem pack32BinaryIP4_dc4 : pack32BinaryIP4 "149.154.167.91" = [149, 154, 167, 91] := by
  decide

theorem pack32BinaryIP4_dc5 : pack32BinaryIP4 "91.108.56.130" = [91, 108, 56, 130] := by
  decide

/-- C6. For every data centre id in 1..5, every port in 0..65535 and every auth key,
`generateTgSession` is the character `1` followed by the padded URL-safe base64 encoding of
the data centre id as one byte, the four octets of that data centre's address from the fixed
table, the port as two bytes big-endian, and the auth key; for an auth key of 256 bytes the
encoded payload has 263 bytes and the session string 353 characters. -/
theorem generateTgSession_layout (dcID : Int) (h1 : 1 ≤ dcID) (h5 : dcID ≤ 5) (port : Int)
    (hp0 : 0 ≤ port) (hp : port ≤ 65535) (authKey : List Byte) :
    generateTgSession dcID authKey port =
        "1" ++ String.mk (base64URLEncode (sessionPayload dcID authKey port)) ∧
      (authKey.length = 256 →
        (sessionPayload dcID authKey port).length = 263 ∧
          (generateTgSession dcID authKey port).length = 353) := by
  have hport : (port % 65536).toNat = port.toNat := by omega
  have hpay : [(dcID % 256).toNat] ++ pack32BinaryIP4 (dcMaps dcID) ++
      [(port % 65536).toNat / 256, (port % 65536).toNat % 256] ++ authKey =
      sessionPayload dcID authKey port := by
    have hdc : (dcID % 256).toNat = dcID.toNat := by omega
    rw [hport, hdc]
    unfold sessionPayload dcMaps
    have hcases : dcID = 1 ∨ dcID = 2 ∨ dcID = 3 ∨ dcID = 4 ∨ dcID = 5 := by omega
    rcases hcases with h | h | h | h | h <;> subst h
    · simp only [if_true]; rw [pack32BinaryIP4_dc1]
    · rw [if_neg (by decide), if_pos rfl, if_neg (by decide), if_pos rfl, pack32BinaryIP4_dc2]
    · rw [if_neg (by decide), if_neg (by decide), if_pos rfl, if_neg (by decide),
        if_neg (by decide), if_pos rfl, pack32BinaryIP4_dc3]
    · rw [if_neg (by decide), if_neg (by decide), if_neg (by decide), if_pos rfl,
        if_neg (by decide), if_neg (by decide), if_neg (by decide), if_pos rfl,
        pack32BinaryIP4_dc4]
    · rw [if_neg (by decide), if_neg (by decide), if_neg (by decide), if_neg (by decide),
        if_pos rfl, if_neg (by decide), if_neg (by decide), if_neg (by decide),
        if_neg (by decide), pack32BinaryIP4_dc5]
  have hgen : generateTgSession dcID authKey port =
      "1" ++ String.mk (base64URLEncode (sessionPayload dcID authKey port)) := by
    unfold generateTgSession
    simp only [hpay]
  refine ⟨hgen, ?_⟩
  intro hkey
  have hlen : (sessionPayload dcID authKey port).length = 263 := by
    unfold sessionPayload
    have hcases : dcID = 1 ∨ dcID = 2 ∨ dcID = 3 ∨ dcID = 4 ∨ dcID = 5 := by omega
    rcases hcases with h | h | h | h | h <;> subst h <;> simp [hkey]
  refine ⟨hlen, ?_⟩
  rw [hgen, String.length_append]
  show 1 + (base64URLEncode (sessionPayload dcID authKey port)).length = 353
  rw [base64URLEncode_length _ _ (le_refl _), hlen]

/-- Witness for C6: data centre 2, port 443, an auth key of 256 bytes. -/
theorem generateTgSession_layout_witness :
    generateTgSession 2 (List.replicate 256 7) 443 =
        "1" ++ String.mk (base64URLEncode (sessionPayload 2 (List.replicate 256 7) 443)) ∧
      ((List.replicate 256 (7 : Byte)).length = 256 →
        (sessionPayload 2 (List.replicate 256 7) 443).length = 263 ∧
          (generateTgSession 2 (List.replicate 256 7) 443).length = 353) :=
  generateTgSession_layout 2 (by decide) (by decide) 443 (by decide) (by decide)
    (List.replicate 256 7)

/-! ## Range server: entry checks (C7, C8) -/

/-- C7. If the `hash` query parameter is empty, or the session lookup for it fails,
`GetFileStream` answers with `http.Error(..., 400)` and does nothing else apart from the
session lookup itself: no file-descriptor lookup in the cache or the metadata store, no
bot-token lookup, no worker acquisition, no part resolution and no read. -/
theorem GetFileStream_invalid_hash (cnf : StreamConfig) (env : Env) (req : Request)
    (h : req.hash = "" ∨ ∃ e, env.getSessionByHash req.hash = Except.error e) :
    statusCalls (GetFileStream cnf env req) = [400] ∧
      (GetFileStream cnf env req = [Effect.httpError "missing hash param" 400] ∨
        GetFileStream cnf env req =
          [Effect.getSessionByHash req.hash, Effect.httpError "invalid hash" 400]) := by
  unfold GetFileStream
  by_cases he : req.hash = ""
  · rw [if_pos he]
    exact ⟨rfl, Or.inl rfl⟩
  · rw [if_neg he]
    rcases h with h | ⟨e, h⟩
    · exact absurd h he
    · rw [h]
      exact ⟨rfl, Or.inr rfl⟩

/-- Witness for C7: the scenario request with a hash that no session has. -/
theorem GetFileStream_invalid_hash_witness :
    statusCalls (GetFileStream scenarioCnf scenarioEnv (scenarioRequest "f1" "zz" "GET" "")) =
        [400] ∧
      (GetFileStream scenarioCnf scenarioEnv (scenarioRequest "f1" "zz" "GET" "") =
          [Effect.httpError "missing hash param" 400] ∨
        GetFileStream scenarioCnf scenarioEnv (scenarioRequest "f1" "zz" "GET" "") =
          [Effect.getSessionByHash (scenarioRequest "f1" "zz" "GET" "").hash,
            Effect.httpError "invalid hash" 400]) :=
  GetFileStream_invalid_hash scenarioCnf scenarioEnv (scenarioRequest "f1" "zz" "GET" "")
    (Or.inr ⟨"record not found", rfl⟩)

/-- C8, the code at a failing input: for the file id `zz`, which is neither in the cache nor in
the metadata store, `GetFileByID` returns an error with code 404, and `GetFileStream` answers
with status 400. -/
theorem GetFileStream_not_found_answers_400 :
    GetFileByID scenarioEnv "zz" = Except.error ⟨"record not found", 404⟩ ∧
      GetFileStream scenarioCnf scenarioEnv (scenarioRequest "zz" "h1" "GET" "") =
        [Effect.getSessionByHash "h1", Effect.cacheGet "files:zz", Effect.getFileByID "zz",
          Effect.httpError "record not found" 400] ∧
      statusCalls (GetFileStream scenarioCnf scenarioEnv (scenarioRequest "zz" "h1" "GET" "")) =
        [400] :=
  ⟨rfl, by decide, by decide⟩

/-! ## Range server: choice of the range and the headers (C9, C10) -/

theorem statusCalls_append (a b : List Effect) :
    statusCalls (a ++ b) = statusCalls a ++ statusCalls b := by
  induction a with
  | nil => rfl
  | cons e es ih => cases e <;> simp_all [statusCalls]

/-- The calls that precede the range stage: the session lookup, the cache lookup and, on a
cache miss, the metadata lookup and the cache update. -/
theorem GetFileStream_reaches_rangeStage (cnf : StreamConfig) (env : Env) (req : Request)
    (session : UserSession) (file : FileOutFull) (hh : req.hash ≠ "")
    (hs : env.getSessionByHash req.hash = Except.ok session)
    (hf : lookupFile env req.fileID = Except.ok file) :
    ∃ pre, statusCalls pre = [] ∧
      GetFileStream cnf env req = pre ++ rangeStage cnf env req session file := by
  unfold GetFileStream
  rw [if_neg hh, hs]
  unfold lookupFile at hf
  cases hc : env.cacheGet ("files:" ++ req.fileID) with
  | ok f =>
    rw [hc] at hf
    cases hf
    exact ⟨[Effect.getSessionByHash req.hash, Effect.cacheGet ("files:" ++ req.fileID)], rfl, rfl⟩
  | error e =>
    rw [hc] at hf
    simp only at hf
    rw [hf]
    exact ⟨[Effect.getSessionByHash req.hash, Effect.cacheGet ("files:" ++ req.fileID),
      Effect.getFileByID req.fileID, Effect.cacheSet ("files:" ++ req.fileID)], rfl, rfl⟩

/-- C9. For a request with a valid hash, a file descriptor of size `size` (an `int64` above its
minimum) and no `Range` header, `GetFileStream`, after the lookups, sets `Accept-Ranges: bytes`,
writes status 200 as its first status, sets `Content-Length` to the decimal value of `size`
among the headers, and goes on to acquire a worker with `start = 0`, `end = size - 1` and a
content length of `size`. -/
theorem GetFileStream_no_range (cnf : StreamConfig) (env : Env) (req : Request)
    (session : UserSession) (file : FileOutFull) (hh : req.hash ≠ "")
    (hs : env.getSessionByHash req.hash = Except.ok session)
    (hf : lookupFile env req.fileID = Except.ok file) (hr : req.rangeHeader = "")
    (hlo : -9223372036854775808 < file.Size) (hhi : file.Size < 9223372036854775808) :
    ∃ pre, statusCalls pre = [] ∧
      GetFileStream cnf env req = pre ++
        [Effect.header "Accept-Ranges" "bytes",
          Effect.writeHeader 200,
          Effect.header "Content-Type"
            (if file.MimeType = "" then "application/octet-stream" else file.MimeType),
          Effect.header "Content-Length" (formatInt file.Size),
          Effect.header "E-Tag"
            ("\"" ++ env.md5FromString (file.ID ++ formatInt file.Size) ++ "\""),
          Effect.header "Last-Modified" file.UpdatedAt,
          Effect.header "Content-Disposition"
            (env.formatMediaType (if req.d = "1" then "attachment" else "inline") file.Name)] ++
        workerStage cnf env req session file 0 (file.Size - 1) file.Size ∧
      (statusCalls (GetFileStream cnf env req)).head? = some 200 := by
  obtain ⟨pre, h1, h2⟩ := GetFileStream_reaches_rangeStage cnf env req session file hh hs hf
  have hend : wrap64 (file.Size - 1) = file.Size - 1 := by unfold wrap64; omega
  have hlen : wrap64 (wrap64 (file.Size - 1 - 0) + 1) = file.Size := by unfold wrap64; omega
  have hrange : rangeStage cnf env req session file =
      [Effect.header "Accept-Ranges" "bytes",
        Effect.writeHeader 200,
        Effect.header "Content-Type"
          (if file.MimeType = "" then "application/octet-stream" else file.MimeType),
        Effect.header "Content-Length" (formatInt file.Size),
        Effect.header "E-Tag"
          ("\"" ++ env.md5FromString (file.ID ++ formatInt file.Size) ++ "\""),
        Effect.header "Last-Modified" file.UpdatedAt,
        Effect.header "Content-Disposition"
          (env.formatMediaType (if req.d = "1" then "attachment" else "inline") file.Name)] ++
      workerStage cnf env req session file 0 (file.Size - 1) file.Size := by
    unfold rangeStage
    rw [if_pos hr, hend]
    unfold headerStage
    simp only [hlen]
    rfl
  refine ⟨pre, h1, by rw [h2, hrange, List.append_assoc], ?_⟩
  rw [h2, statusCalls_append, h1, hrange]
  rfl

/-- Witness for C9, the first scenario of the specification: size 100 and no `Range`. -/
theorem GetFileStream_no_range_witness :
    ∃ pre, statusCalls pre = [] ∧
      GetFileStream scenarioCnf scenarioEnv (scenarioRequest "f1" "h1" "GET" "") = pre ++
        [Effect.header "Accept-Ranges" "bytes",
          Effect.writeHeader 200,
          Effect.header "Content-Type"
            (if scenarioFile.MimeType = "" then "application/octet-stream"
              else scenarioFile.MimeType),
          Effect.header "Content-Length" (formatInt scenarioFile.Size),
          Effect.header "E-Tag"
            ("\"" ++ scenarioEnv.md5FromString (scenarioFile.ID ++ formatInt scenarioFile.Size)
              ++ "\""),
          Effect.header "Last-Modified" scenarioFile.UpdatedAt,
          Effect.header "Content-Disposition"
            (scenarioEnv.formatMediaType
              (if (scenarioRequest "f1" "h1" "GET" "").d = "1" then "attachment" else "inline")
              scenarioFile.Name)] ++
        workerStage scenarioCnf scenarioEnv (scenarioRequest "f1" "h1" "GET" "") ⟨1, "s1"⟩
          scenarioFile 0 (scenarioFile.Size - 1) scenarioFile.Size ∧
      (statusCalls (GetFileStream scenarioCnf scenarioEnv
        (scenarioRequest "f1" "h1" "GET" ""))).head? = some 200 :=
  GetFileStream_no_range scenarioCnf scenarioEnv (scenarioRequest "f1" "h1" "GET" "") ⟨1, "s1"⟩
    scenarioFile (by decide) rfl rfl rfl (by decide) (by decide)

/-- The first scenario of the specification, evaluated: file size 100, no `Range`, `GET`. -/
theorem GetFileStream_scenario_no_range :
    GetFileStream scenarioCnf scenarioEnv (scenarioRequest "f1" "h1" "GET" "") =
      [Effect.getSessionByHash "h1", Effect.cacheGet "files:f1", Effect.getFileByID "f1",
        Effect.cacheSet "files:f1",
        Effect.header "Accept-Ranges" "bytes",
        Effect.writeHeader 200,
        Effect.header "Content-Type" "application/octet-stream",
        Effect.header "Content-Length" "100",
        Effect.header "E-Tag" "\"md5:f1100\"",
        Effect.header "Last-Modified" "Mon, 02 Jan 2006 15:04:05 GMT",
        Effect.header "Content-Disposition" "inline; filename=a.bin",
        Effect.getBotsToken 1 7,
        Effect.workerSet ["11:aa", "22:bb", "33:cc"] 7,
        Effect.workerNext 7,
        Effect.getParts 1 "11",
        Effect.rangedParts 0 99,
        Effect.newLinearReader 100,
        Effect.copyN false 100] := by
  decide

/-- C10. For a request with a valid hash, a file descriptor of size `size` and a `Range` header
that parses to exactly one range `[start, end]` (with `end - start + 1` within `int64`),
`GetFileStream`, after the lookups, sets `Accept-Ranges: bytes`, sets `Content-Range` to
`bytes <start>-<end>/<size>`, writes status 206 as its first status, sets `Content-Length` to
the decimal value of `end - start + 1` among the headers, and goes on to acquire a worker with
that range and content length. -/
theorem GetFileStream_single_range (cnf : StreamConfig) (env : Env) (req : Request)
    (session : UserSession) (file : FileOutFull) (start end_ : Int) (hh : req.hash ≠ "")
    (hs : env.getSessionByHash req.hash = Except.ok session)
    (hf : lookupFile env req.fileID = Except.ok file) (hr : req.rangeHeader ≠ "")
    (hp : env.rangeParse req.rangeHeader file.Size = Except.ok [⟨start, end_⟩])
    (hlo : -9223372036854775808 ≤ end_ - start) (hhi : end_ - start + 1 < 9223372036854775808) :
    ∃ pre, statusCalls pre = [] ∧
      GetFileStream cnf env req = pre ++
        [Effect.header "Accept-Ranges" "bytes",
          Effect.header "Content-Range"
            ("bytes " ++ formatInt start ++ "-" ++ formatInt end_ ++ "/" ++ formatInt file.Size),
          Effect.writeHeader 206,
          Effect.header "Content-Type"
            (if file.MimeType = "" then "application/octet-stream" else file.MimeType),
          Effect.header "Content-Length" (formatInt (end_ - start + 1)),
          Effect.header "E-Tag"
            ("\"" ++ env.md5FromString (file.ID ++ formatInt file.Size) ++ "\""),
          Effect.header "Last-Modified" file.UpdatedAt,
          Effect.header "Content-Disposition"
            (env.formatMediaType (if req.d = "1" then "attachment" else "inline") file.Name)] ++
        workerStage cnf env req session file start end_ (end_ - start + 1) ∧
      (statusCalls (GetFileStream cnf env req)).head? = some 206 := by
  obtain ⟨pre, h1, h2⟩ := GetFileStream_reaches_rangeStage cnf env req session file hh hs hf
  have hlen : wrap64 (wrap64 (end_ - start) + 1) = end_ - start + 1 := by unfold wrap64; omega
  have hrange : rangeStage cnf env req session file =
      [Effect.header "Accept-Ranges" "bytes",
        Effect.header "Content-Range"
          ("bytes " ++ formatInt start ++ "-" ++ formatInt end_ ++ "/" ++ formatInt file.Size),
        Effect.writeHeader 206,
        Effect.header "Content-Type"
          (if file.MimeType = "" then "application/octet-stream" else file.MimeType),
        Effect.header "Content-Length" (formatInt (end_ - start + 1)),
        Effect.header "E-Tag"
          ("\"" ++ env.md5FromString (file.ID ++ formatInt file.Size) ++ "\""),
        Effect.header "Last-Modified" file.UpdatedAt,
        Effect.header "Content-Disposition"
          (env.formatMediaType (if req.d = "1" then "attachment" else "inline") file.Name)] ++
      workerStage cnf env req session file start end_ (end_ - start + 1) := by
    unfold rangeStage
    rw [if_neg hr, hp]
    simp only [List.length_singleton, gt_iff_lt, lt_self_iff_false, if_false]
    unfold headerStage
    simp only [hlen]
    rfl
  refine ⟨pre, h1, by rw [h2, hrange, List.append_assoc], ?_⟩
  rw [h2, statusCalls_append, h1, hrange]
  rfl

/-- Witness for C10, the second scenario of the specification: size 100 and
`Range: bytes=50-59`. -/
theorem GetFileStream_single_range_witness :
    ∃ pre, statusCalls pre = [] ∧
      GetFileStream scenarioCnf scenarioEnv (scenarioRequest "f1" "h1" "GET" "bytes=50-59") =
        pre ++
        [Effect.header "Accept-Ranges" "bytes",
          Effect.header "Content-Range"
            ("bytes " ++ formatInt 50 ++ "-" ++ formatInt 59 ++ "/" ++
              formatInt scenarioFile.Size),
          Effect.writeHeader 206,
          Effect.header "Content-Type"
            (if scenarioFile.MimeType = "" then "application/octet-stream"
              else scenarioFile.MimeType),
          Effect.header "Content-Length" (formatInt (59 - 50 + 1)),
          Effect.header "E-Tag"
            ("\"" ++ scenarioEnv.md5FromString (scenarioFile.ID ++ formatInt scenarioFile.Size)
              ++ "\""),
          Effect.header "Last-Modified" scenarioFile.UpdatedAt,
          Effect.header "Content-Disposition"
            (scenarioEnv.formatMediaType
              (if (scenarioRequest "f1" "h1" "GET" "bytes=50-59").d = "1" then "attachment"
                else "inline")
              scenarioFile.Name)] ++
        workerStage scenarioCnf scenarioEnv (scenarioRequest "f1" "h1" "GET" "bytes=50-59")
          ⟨1, "s1"⟩ scenarioFile 50 59 (59 - 50 + 1) ∧
      (statusCalls (GetFileStream scenarioCnf scenarioEnv
        (scenarioRequest "f1" "h1" "GET" "bytes=50-59"))).head? = some 206 :=
  GetFileStream_single_range scenarioCnf scenarioEnv
    (scenarioRequest "f1" "h1" "GET" "bytes=50-59") ⟨1, "s1"⟩ scenarioFile 50 59 (by decide) rfl
    rfl (by decide) rfl (by decide) (by decide)

/-- The second scenario of the specification, evaluated: file size 100, `Range: bytes=50-59`. -/
theorem GetFileStream_scenario_range_50_59 :
    GetFileStream scenarioCnf scenarioEnv (scenarioRequest "f1" "h1" "GET" "bytes=50-59") =
      [Effect.getSessionByHash "h1", Effect.cacheGet "files:f1", Effect.getFileByID "f1",
        Effect.cacheSet "files:f1",
        Effect.header "Accept-Ranges" "bytes",
        Effect.header "Content-Range" "bytes 50-59/100",
        Effect.writeHeader 206,
        Effect.header "Content-Type" "application/octet-stream",
        Effect.header "Content-Length" "10",
        Effect.header "E-Tag" "\"md5:f1100\"",
        Effect.header "Last-Modified" "Mon, 02 Jan 2006 15:04:05 GMT",
        Effect.header "Content-Disposition" "inline; filename=a.bin",
        Effect.getBotsToken 1 7,
        Effect.workerSet ["11:aa", "22:bb", "33:cc"] 7,
        Effect.workerNext 7,
        Effect.getParts 1 "11",
        Effect.rangedParts 50 59,
        Effect.newLinearReader 10,
        Effect.copyN false 10] := by
  decide

/-! ## Range server: unsatisfiable and multiple ranges (C11, C12) -/

/-- The calls that precede the range stage, spelled out. -/
theorem GetFileStream_lookups (cnf : StreamConfig) (env : Env) (req : Request)
    (session : UserSession) (file : FileOutFull) (hh : req.hash ≠ "")
    (hs : env.getSessionByHash req.hash = Except.ok session)
    (hf : lookupFile env req.fileID = Except.ok file) :
    ∃ pre, (pre = [Effect.getSessionByHash req.hash, Effect.cacheGet ("files:" ++ req.fileID)] ∨
        pre = [Effect.getSessionByHash req.hash, Effect.cacheGet ("files:" ++ req.fileID),
          Effect.getFileByID req.fileID, Effect.cacheSet ("files:" ++ req.fileID)]) ∧
      GetFileStream cnf env req = pre ++ rangeStage cnf env req session file := by
  unfold GetFileStream
  rw [if_neg hh, hs]
  unfold lookupFile at hf
  cases hc : env.cacheGet ("files:" ++ req.fileID) with
  | ok f =>
    rw [hc] at hf
    cases hf
    exact ⟨_, Or.inl rfl, rfl⟩
  | error e =>
    rw [hc] at hf
    simp only at hf
    rw [hf]
    exact ⟨_, Or.inr rfl, rfl⟩

/-- C11. For a request with a valid hash, a file descriptor of size `size` and a `Range`
header for which the range parser reports no overlap, `GetFileStream` makes, after the session
and file lookups, exactly three calls: it sets `Accept-Ranges: bytes`, sets `Content-Range` to
`bytes */<size>` and answers with `http.Error(..., 416)`.  The only status written is 416, no
worker is acquired, no part is resolved and nothing is copied. -/
theorem GetFileStream_unsatisfiable_range (cnf : StreamConfig) (env : Env) (req : Request)
    (session : UserSession) (file : FileOutFull) (hh : req.hash ≠ "")
    (hs : env.getSessionByHash req.hash = Except.ok session)
    (hf : lookupFile env req.fileID = Except.ok file) (hr : req.rangeHeader ≠ "")
    (hp : env.rangeParse req.rangeHeader file.Size = Except.error RangeError.ErrNoOverlap) :
    ∃ pre, (pre = [Effect.getSessionByHash req.hash, Effect.cacheGet ("files:" ++ req.fileID)] ∨
        pre = [Effect.getSessionByHash req.hash, Effect.cacheGet ("files:" ++ req.fileID),
          Effect.getFileByID req.fileID, Effect.cacheSet ("files:" ++ req.fileID)]) ∧
      GetFileStream cnf env req = pre ++
        [Effect.header "Accept-Ranges" "bytes",
          Effect.header "Content-Range" ("bytes */" ++ formatInt file.Size),
          Effect.httpError env.errNoOverlap 416] ∧
      statusCalls (GetFileStream cnf env req) = [416] ∧
      workerCalls (GetFileStream cnf env req) = [] ∧
      bodyCalls (GetFileStream cnf env req) = [] := by
  obtain ⟨pre, h1, h2⟩ := GetFileStream_lookups cnf env req session file hh hs hf
  have hrange : rangeStage cnf env req session file =
      [Effect.header "Accept-Ranges" "bytes",
        Effect.header "Content-Range" ("bytes */" ++ formatInt file.Size),
        Effect.httpError env.errNoOverlap 416] := by
    unfold rangeStage
    rw [if_neg hr, hp]
  rw [h2, hrange]
  refine ⟨pre, h1, rfl, ?_, ?_, ?_⟩ <;> rcases h1 with h | h <;> subst h <;> rfl

/-- Witness for C11, the fifth scenario of the specification: size 100 and
`Range: bytes=200-300`. -/
theorem GetFileStream_unsatisfiable_range_witness :
    ∃ pre, (pre = [Effect.getSessionByHash (scenarioRequest "f1" "h1" "GET" "bytes=200-300").hash,
          Effect.cacheGet ("files:" ++ (scenarioRequest "f1" "h1" "GET" "bytes=200-300").fileID)] ∨
        pre = [Effect.getSessionByHash (scenarioRequest "f1" "h1" "GET" "bytes=200-300").hash,
          Effect.cacheGet ("files:" ++ (scenarioRequest "f1" "h1" "GET" "bytes=200-300").fileID),
          Effect.getFileByID (scenarioRequest "f1" "h1" "GET" "bytes=200-300").fileID,
          Effect.cacheSet
            ("files:" ++ (scenarioRequest "f1" "h1" "GET" "bytes=200-300").fileID)]) ∧
      GetFileStream scenarioCnf scenarioEnv (scenarioRequest "f1" "h1" "GET" "bytes=200-300") =
        pre ++
        [Effect.header "Accept-Ranges" "bytes",
          Effect.header "Content-Range" ("bytes */" ++ formatInt scenarioFile.Size),
          Effect.httpError scenarioEnv.errNoOverlap 416] ∧
      statusCalls (GetFileStream scenarioCnf scenarioEnv
        (scenarioRequest "f1" "h1" "GET" "bytes=200-300")) = [416] ∧
      workerCalls (GetFileStream scenarioCnf scenarioEnv
        (scenarioRequest "f1" "h1" "GET" "bytes=200-300")) = [] ∧
      bodyCalls (GetFileStream scenarioCnf scenarioEnv
        (scenarioRequest "f1" "h1" "GET" "bytes=200-300")) = [] :=
  GetFileStream_unsatisfiable_range scenarioCnf scenarioEnv
    (scenarioRequest "f1" "h1" "GET" "bytes=200-300") ⟨1, "s1"⟩ scenarioFile (by decide) rfl rfl
    (by decide) rfl

/-- The fifth scenario of the specification, evaluated: size 100, `Range: bytes=200-300`. -/
theorem GetFileStream_scenario_unsatisfiable :
    GetFileStream scenarioCnf scenarioEnv (scenarioRequest "f1" "h1" "GET" "bytes=200-300") =
      [Effect.getSessionByHash "h1", Effect.cacheGet "files:f1", Effect.getFileByID "f1",
        Effect.cacheSet "files:f1",
        Effect.header "Accept-Ranges" "bytes",
        Effect.header "Content-Range" "bytes */100",
        Effect.httpError "invalid range: failed to overlap" 416] := by
  decide

/-- C12 fails as stated: for `Range: bytes=0-10,20-30`, which parses to two ranges, the handler
answers with status 416 and the message `multiple ranges are not supported`; the message
`multiple ranges unsupported` is not what it sends. -/
theorem GetFileStream_multiple_ranges_message :
    GetFileStream scenarioCnf scenarioEnv (scenarioRequest "f1" "h1" "GET" "bytes=0-10,20-30") =
        [Effect.getSessionByHash "h1", Effect.cacheGet "files:f1", Effect.getFileByID "f1",
          Effect.cacheSet "files:f1",
          Effect.header "Accept-Ranges" "bytes",
          Effect.httpError "multiple ranges are not supported" 416] ∧
      Effect.httpError "multiple ranges unsupported" 416 ∉
        GetFileStream scenarioCnf scenarioEnv
          (scenarioRequest "f1" "h1" "GET" "bytes=0-10,20-30") := by
  decide

/-- C12 as amended: for a request with a valid hash, a file descriptor and a `Range` header
that parses to more than one range, `GetFileStream` makes, after the lookups, exactly two
calls: it sets `Accept-Ranges: bytes` and answers with
`http.Error("multiple ranges are not supported", 416)`.  The only status written is 416, no
worker is acquired, and no part of the file is resolved or copied. -/
theorem GetFileStream_multiple_ranges (cnf : StreamConfig) (env : Env) (req : Request)
    (session : UserSession) (file : FileOutFull) (ranges : List Range) (hh : req.hash ≠ "")
    (hs : env.getSessionByHash req.hash = Except.ok session)
    (hf : lookupFile env req.fileID = Except.ok file) (hr : req.rangeHeader ≠ "")
    (hp : env.rangeParse req.rangeHeader file.Size = Except.ok ranges)
    (hn : 1 < ranges.length) :
    ∃ pre, (pre = [Effect.getSessionByHash req.hash, Effect.cacheGet ("files:" ++ req.fileID)] ∨
        pre = [Effect.getSessionByHash req.hash, Effect.cacheGet ("files:" ++ req.fileID),
          Effect.getFileByID req.fileID, Effect.cacheSet ("files:" ++ req.fileID)]) ∧
      GetFileStream cnf env req = pre ++
        [Effect.header "Accept-Ranges" "bytes",
          Effect.httpError "multiple ranges are not supported" 416] ∧
      statusCalls (GetFileStream cnf env req) = [416] ∧
      workerCalls (GetFileStream cnf env req) = [] ∧
      bodyCalls (GetFileStream cnf env req) = [] := by
  obtain ⟨pre, h1, h2⟩ := GetFileStream_lookups cnf env req session file hh hs hf
  have hrange : rangeStage cnf env req session file =
      [Effect.header "Accept-Ranges" "bytes",
        Effect.httpError "multiple ranges are not supported" 416] := by
    unfold rangeStage
    rw [if_neg hr, hp]
    simp only
    rw [if_pos hn]
  rw [h2, hrange]
  refine ⟨pre, h1, rfl, ?_, ?_, ?_⟩ <;> rcases h1 with h | h <;> subst h <;> rfl

/-- Witness for C12 as amended, the sixth scenario of the specification:
`Range: bytes=0-10,20-30`. -/
theorem GetFileStream_multiple_ranges_witness :
    ∃ pre, (pre = [Effect.getSessionByHash
            (scenarioRequest "f1" "h1" "GET" "bytes=0-10,20-30").hash,
          Effect.cacheGet
            ("files:" ++ (scenarioRequest "f1" "h1" "GET" "bytes=0-10,20-30").fileID)] ∨
        pre = [Effect.getSessionByHash (scenarioRequest "f1" "h1" "GET" "bytes=0-10,20-30").hash,
          Effect.cacheGet
            ("files:" ++ (scenarioRequest "f1" "h1" "GET" "bytes=0-10,20-30").fileID),
          Effect.getFileByID (scenarioRequest "f1" "h1" "GET" "bytes=0-10,20-30").fileID,
          Effect.cacheSet
            ("files:" ++ (scenarioRequest "f1" "h1" "GET" "bytes=0-10,20-30").fileID)]) ∧
      GetFileStream scenarioCnf scenarioEnv
          (scenarioRequest "f1" "h1" "GET" "bytes=0-10,20-30") = pre ++
        [Effect.header "Accept-Ranges" "bytes",
          Effect.httpError "multiple ranges are not supported" 416] ∧
      statusCalls (GetFileStream scenarioCnf scenarioEnv
        (scenarioRequest "f1" "h1" "GET" "bytes=0-10,20-30")) = [416] ∧
      workerCalls (GetFileStream scenarioCnf scenarioEnv
        (scenarioRequest "f1" "h1" "GET" "bytes=0-10,20-30")) = [] ∧
      bodyCalls (GetFileStream scenarioCnf scenarioEnv
        (scenarioRequest "f1" "h1" "GET" "bytes=0-10,20-30")) = [] :=
  GetFileStream_multiple_ranges scenarioCnf scenarioEnv
    (scenarioRequest "f1" "h1" "GET" "bytes=0-10,20-30") ⟨1, "s1"⟩ scenarioFile
    [⟨0, 10⟩, ⟨20, 30⟩] (by decide) rfl rfl (by decide) rfl (by decide)

/-! ## Range server: the entity tag header (C13) -/

/-- C13, the code at a failing input: in the first scenario (`GET`, no `Range`, status 200)
the handler sets a header named `E-Tag` with the quoted digest of the id followed by the decimal
size, and sets no header named `ETag`. -/
theorem GetFileStream_sets_E_Tag_not_ETag :
    statusCalls (GetFileStream scenarioCnf scenarioEnv (scenarioRequest "f1" "h1" "GET" "")) =
        [200] ∧
      ("E-Tag", "\"" ++ scenarioEnv.md5FromString (scenarioFile.ID ++ formatInt scenarioFile.Size)
          ++ "\"") ∈
        headersOf (GetFileStream scenarioCnf scenarioEnv (scenarioRequest "f1" "h1" "GET" "")) ∧
      (headersOf (GetFileStream scenarioCnf scenarioEnv
        (scenarioRequest "f1" "h1" "GET" ""))).lookup "ETag" = none ∧
      (headersOf (GetFileStream scenarioCnf scenarioEnv
        (scenarioRequest "f1" "h1" "GET" ""))).map Prod.fst =
        ["Accept-Ranges", "Content-Type", "Content-Length", "E-Tag", "Last-Modified",
          "Content-Disposition"] := by
  decide

/-! ## Range server: `HEAD` and `GET` (C14) -/

theorem headersOf_append (a b : List Effect) :
    headersOf (a ++ b) = headersOf a ++ headersOf b := by
  induction a with
  | nil => rfl
  | cons e es ih => cases e <;> simp_all [headersOf]

theorem bodyCalls_append (a b : List Effect) :
    bodyCalls (a ++ b) = bodyCalls a ++ bodyCalls b := by
  induction a with
  | nil => rfl
  | cons e es ih => cases e <;> simp_all [bodyCalls]

theorem getOnly_nil : GetOnly [] :=
  Or.inl ⟨rfl, rfl⟩

theorem copyStage_head (cnf : StreamConfig) (env : Env) (req : Request) (file : FileOutFull)
    (client : Nat) (channelUser : String) (start end_ contentLength : Int) :
    copyStage cnf env (withMethod req "HEAD") file client channelUser start end_
      contentLength = [] := by
  simp [copyStage, withMethod]

theorem copyStage_getOnly (cnf : StreamConfig) (env : Env) (req : Request) (file : FileOutFull)
    (client : Nat) (channelUser : String) (start end_ contentLength : Int) :
    GetOnly (copyStage cnf env req file client channelUser start end_ contentLength) := by
  unfold copyStage
  split
  · cases env.getParts client file channelUser with
    | error e => exact Or.inr ⟨_, _, _, rfl⟩
    | ok parts =>
      simp only
      refine Or.inl ⟨?_, ?_⟩ <;> split <;> split <;> rfl
  · exact getOnly_nil

/-- From the worker stage on, a `GET` does what a `HEAD` does and then the copy stage. -/
theorem workerStage_head (cnf : StreamConfig) (env : Env) (req : Request)
    (session : UserSession) (file : FileOutFull) (start end_ contentLength : Int) :
    ∃ extra, workerStage cnf env req session file start end_ contentLength =
        workerStage cnf env (withMethod req "HEAD") session file start end_ contentLength ++
          extra ∧ GetOnly extra := by
  unfold workerStage
  cases env.getBotsToken session.UserId file.ChannelID with
  | error e => exact ⟨[], by simp, getOnly_nil⟩
  | ok tokens =>
    simp only
    split
    · cases env.userWorker session.Session session.UserId with
      | error e => exact ⟨[], by simp, getOnly_nil⟩
      | ok client =>
        exact ⟨copyStage cnf env req file client (formatInt session.UserId) start end_
          contentLength, by simp only [copyStage_head, List.append_nil, List.cons_append,
          List.nil_append], copyStage_getOnly cnf env req file client _ start end_ contentLength⟩
    · split
      · exact ⟨[], by simp, getOnly_nil⟩
      · cases env.workerNext (List.take (min (tokens.length : Int) cnf.BgBotsLimit).toNat tokens)
            file.ChannelID with
        | error e => exact ⟨[], by simp, getOnly_nil⟩
        | ok res =>
          obtain ⟨client, index⟩ := res
          simp only
          split
          · exact ⟨[], by simp, getOnly_nil⟩
          · exact ⟨copyStage cnf env req file client
                (String.mk ((tokens.getD index.toNat "").toList.takeWhile fun c => c ≠ ':'))
                start end_ contentLength,
              by simp only [copyStage_head, List.append_nil, List.cons_append, List.nil_append],
              copyStage_getOnly cnf env req file client _ start end_ contentLength⟩

theorem rangeStage_head (cnf : StreamConfig) (env : Env) (req : Request)
    (session : UserSession) (file : FileOutFull) :
    ∃ extra, rangeStage cnf env req session file =
        rangeStage cnf env (withMethod req "HEAD") session file ++ extra ∧ GetOnly extra := by
  have hh : ∀ s e, ∃ extra, headerStage cnf env req session file s e =
      headerStage cnf env (withMethod req "HEAD") session file s e ++ extra ∧
        GetOnly extra := by
    intro s e
    obtain ⟨extra, h1, h2⟩ := workerStage_head cnf env req session file s e
      (wrap64 (wrap64 (e - s) + 1))
    refine ⟨extra, ?_, h2⟩
    unfold headerStage
    simp only [h1, List.cons_append, List.nil_append, List.append_assoc]
    rfl
  unfold rangeStage
  show ∃ extra, (Effect.header "Accept-Ranges" "bytes" ::
      if req.rangeHeader = "" then _ else _) =
    (Effect.header "Accept-Ranges" "bytes" :: if req.rangeHeader = "" then _ else _) ++ extra ∧ _
  split
  · obtain ⟨extra, h1, h2⟩ := hh 0 (wrap64 (file.Size - 1))
    exact ⟨extra, by simp only [h1, List.cons_append], h2⟩
  · show ∃ extra, (Effect.header "Accept-Ranges" "bytes" ::
        match env.rangeParse req.rangeHeader file.Size with
        | Except.error RangeError.ErrNoOverlap => _
        | Except.error (RangeError.other msg) => _
        | Except.ok ranges => _) =
      (Effect.header "Accept-Ranges" "bytes" ::
        match env.rangeParse req.rangeHeader file.Size with
        | Except.error RangeError.ErrNoOverlap => _
        | Except.error (RangeError.other msg) => _
        | Except.ok ranges => _) ++ extra ∧ _
    cases env.rangeParse req.rangeHeader file.Size with
    | error e => cases e <;> exact ⟨[], by simp, getOnly_nil⟩
    | ok ranges =>
      simp only
      split
      · exact ⟨[], by simp, getOnly_nil⟩
      · cases ranges with
        | nil => exact ⟨[], by simp, getOnly_nil⟩
        | cons r0 rest =>
          obtain ⟨extra, h1, h2⟩ := hh r0.Start r0.End
          exact ⟨extra, by simp only [h1, List.cons_append], h2⟩

theorem withMethod_hash (req : Request) (m : String) : (withMethod req m).hash = req.hash :=
  rfl

theorem withMethod_fileID (req : Request) (m : String) :
    (withMethod req m).fileID = req.fileID :=
  rfl

theorem withMethod_rangeHeader (req : Request) (m : String) :
    (withMethod req m).rangeHeader = req.rangeHeader :=
  rfl

theorem GetFileStream_head (cnf : StreamConfig) (env : Env) (req : Request) :
    ∃ extra, GetFileStream cnf env req =
        GetFileStream cnf env (withMethod req "HEAD") ++ extra ∧ GetOnly extra := by
  unfold GetFileStream
  simp only [withMethod_hash, withMethod_fileID]
  split
  · exact ⟨[], by simp, getOnly_nil⟩
  · cases env.getSessionByHash req.hash with
    | error e => exact ⟨[], by simp, getOnly_nil⟩
    | ok session =>
      simp only
      cases env.cacheGet ("files:" ++ req.fileID) with
      | ok file =>
        obtain ⟨extra, h1, h2⟩ := rangeStage_head cnf env req session file
        exact ⟨extra, by simp only [h1, List.cons_append], h2⟩
      | error e =>
        simp only
        cases GetFileByID env req.fileID with
        | error appErr => exact ⟨[], by simp, getOnly_nil⟩
        | ok file =>
          obtain ⟨extra, h1, h2⟩ := rangeStage_head cnf env req session file
          exact ⟨extra, by simp only [h1, List.cons_append], h2⟩

theorem workerStage_head_bodyCalls (cnf : StreamConfig) (env : Env) (req : Request)
    (session : UserSession) (file : FileOutFull) (start end_ contentLength : Int) :
    bodyCalls (workerStage cnf env (withMethod req "HEAD") session file start end_
      contentLength) = [] := by
  unfold workerStage
  cases env.getBotsToken session.UserId file.ChannelID with
  | error e => rfl
  | ok tokens =>
    simp only
    split
    · cases env.userWorker session.Session session.UserId with
      | error e => rfl
      | ok client =>
        simp only [copyStage_head]
        rfl
    · split
      · rfl
      · cases env.workerNext (List.take (min (tokens.length : Int) cnf.BgBotsLimit).toNat tokens)
            file.ChannelID with
        | error e => rfl
        | ok res =>
          obtain ⟨client, index⟩ := res
          simp only [copyStage_head]
          split <;> rfl

theorem rangeStage_head_bodyCalls (cnf : StreamConfig) (env : Env) (req : Request)
    (session : UserSession) (file : FileOutFull) :
    bodyCalls (rangeStage cnf env (withMethod req "HEAD") session file) = [] := by
  have hh : ∀ s e, bodyCalls (headerStage cnf env (withMethod req "HEAD") session file s e) =
      [] := by
    intro s e
    unfold headerStage
    exact workerStage_head_bodyCalls cnf env req session file s e _
  unfold rangeStage
  split
  · exact hh _ _
  · cases env.rangeParse (withMethod req "HEAD").rangeHeader file.Size with
    | error e => cases e <;> rfl
    | ok ranges =>
      simp only
      split
      · rfl
      · cases ranges with
        | nil => rfl
        | cons r0 rest => exact hh _ _

theorem GetFileStream_head_bodyCalls (cnf : StreamConfig) (env : Env) (req : Request) :
    bodyCalls (GetFileStream cnf env (withMethod req "HEAD")) = [] := by
  unfold GetFileStream
  split
  · rfl
  · cases env.getSessionByHash (withMethod req "HEAD").hash with
    | error e => rfl
    | ok session =>
      simp only
      cases env.cacheGet ("files:" ++ (withMethod req "HEAD").fileID) with
      | ok file => exact rangeStage_head_bodyCalls cnf env req session file
      | error e =>
        simp only
        cases GetFileByID env (withMethod req "HEAD").fileID with
        | error appErr => rfl
        | ok file => exact rangeStage_head_bodyCalls cnf env req session file

/-- C14 fails as stated: when part resolution fails, the `GET` of the first scenario writes
the statuses 200 and then 500 and, with `http.Error`, two more headers, the `HEAD` only the
status 200. -/
theorem GetFileStream_get_status_differs_from_head :
    statusCalls (GetFileStream scenarioCnf scenarioEnvNoParts
        (scenarioRequest "f1" "h1" "GET" "")) = [200, 500] ∧
      statusCalls (GetFileStream scenarioCnf scenarioEnvNoParts
        (scenarioRequest "f1" "h1" "HEAD" "")) = [200] ∧
      headersOf (GetFileStream scenarioCnf scenarioEnvNoParts
          (scenarioRequest "f1" "h1" "GET" "")) =
        headersOf (GetFileStream scenarioCnf scenarioEnvNoParts
          (scenarioRequest "f1" "h1" "HEAD" "")) ++
          [("Content-Type", "text/plain; charset=utf-8"),
            ("X-Content-Type-Options", "nosniff")] := by
  decide

/-- C14 as amended: for every configuration, environment and request, what `GetFileStream`
does for the method `HEAD` is the beginning of what it does for any other method, and for `HEAD`
no part is resolved, no reader is built and nothing is copied.  Either the statuses written and
the headers set are the same for both, value for value, `Content-Length` included; or part
resolution fails for the other method, which then adds the part lookup and an
`http.Error(..., 500)`, that is the status 500 and the headers
`Content-Type: text/plain; charset=utf-8` and `X-Content-Type-Options: nosniff`. -/
theorem GetFileStream_head_matches_get (cnf : StreamConfig) (env : Env) (req : Request) :
    ∃ extra, GetFileStream cnf env req =
        GetFileStream cnf env (withMethod req "HEAD") ++ extra ∧
      bodyCalls (GetFileStream cnf env (withMethod req "HEAD")) = [] ∧
      ((headersOf (GetFileStream cnf env req) =
            headersOf (GetFileStream cnf env (withMethod req "HEAD")) ∧
          statusCalls (GetFileStream cnf env req) =
            statusCalls (GetFileStream cnf env (withMethod req "HEAD"))) ∨
        ∃ c u e, extra = [Effect.getParts c u, Effect.httpError e 500] ∧
          headersOf (GetFileStream cnf env req) =
            headersOf (GetFileStream cnf env (withMethod req "HEAD")) ++
              [("Content-Type", "text/plain; charset=utf-8"),
                ("X-Content-Type-Options", "nosniff")] ∧
          statusCalls (GetFileStream cnf env req) =
            statusCalls (GetFileStream cnf env (withMethod req "HEAD")) ++ [500]) := by
  obtain ⟨extra, h1, h2⟩ := GetFileStream_head cnf env req
  refine ⟨extra, h1, GetFileStream_head_bodyCalls cnf env req, ?_⟩
  rcases h2 with ⟨h3, h4⟩ | ⟨c, u, e, h⟩
  · left
    exact ⟨by rw [h1, headersOf_append, h3, List.append_nil],
      by rw [h1, statusCalls_append, h4, List.append_nil]⟩
  · right
    refine ⟨c, u, e, h, ?_, ?_⟩
    · rw [h1, headersOf_append, h]
      rfl
    · rw [h1, statusCalls_append, h]
      rfl

/-! ## Range server: choice of the worker (C15) -/

theorem workerCalls_copyStage (cnf : StreamConfig) (env : Env) (req : Request)
    (file : FileOutFull) (client : Nat) (channelUser : String)
    (start end_ contentLength : Int) :
    workerCalls (copyStage cnf env req file client channelUser start end_ contentLength) =
      [] := by
  unfold copyStage
  split
  · cases env.getParts client file channelUser with
    | error e => rfl
    | ok parts =>
      simp only
      split <;> split <;> rfl
  · rfl

theorem copyStage_panic (cnf : StreamConfig) (env : Env) (req : Request) (file : FileOutFull)
    (client : Nat) (channelUser : String) (start end_ contentLength : Int) (msg : String)
    (h : Effect.panic msg ∈
      copyStage cnf env req file client channelUser start end_ contentLength) :
    msg = "nil reader" := by
  unfold copyStage at h
  split at h
  · cases hg : env.getParts client file channelUser with
    | error e =>
      rw [hg] at h
      simp at h
    | ok parts =>
      rw [hg] at h
      simp only at h
      split at h <;> split at h <;> simp at h <;> exact h
  · simp at h

theorem setBounded_cons (limit : Int) (e : Effect) (tr : List Effect)
    (h1 : ∀ toks ch, e ≠ Effect.workerSet toks ch) (h : SetBounded limit tr) :
    SetBounded limit (e :: tr) := by
  intro toks ch hm
  rcases List.mem_cons.mp hm with h2 | h2
  · exact absurd h2.symm (h1 toks ch)
  · exact h toks ch h2

theorem setBounded_of_workerCalls_nil (limit : Int) (tr : List Effect)
    (h : workerCalls tr = []) : SetBounded limit tr := by
  intro toks ch hm
  exfalso
  induction tr with
  | nil => simp at hm
  | cons e es ih =>
    rcases List.mem_cons.mp hm with h2 | h2
    · subst h2
      simp [workerCalls] at h
    · apply ih _ h2
      cases e <;> simp_all [workerCalls]

theorem workerStage_setBounded (cnf : StreamConfig) (env : Env) (req : Request)
    (session : UserSession) (file : FileOutFull) (start end_ contentLength : Int) :
    SetBounded cnf.BgBotsLimit
      (workerStage cnf env req session file start end_ contentLength) := by
  unfold workerStage
  cases env.getBotsToken session.UserId file.ChannelID with
  | error e => exact setBounded_of_workerCalls_nil _ _ rfl
  | ok tokens =>
    simp only
    refine setBounded_cons _ _ _ (by simp) ?_
    split
    · cases env.userWorker session.Session session.UserId with
      | error e =>
        intro toks ch hm
        simp at hm
      | ok client =>
        simp only [List.cons_append, List.nil_append]
        exact setBounded_cons _ _ _ (by simp) (setBounded_cons _ _ _ (by simp)
          (setBounded_of_workerCalls_nil _ _ (workerCalls_copyStage _ _ _ _ _ _ _ _ _)))
    · split
      · exact setBounded_of_workerCalls_nil _ _ rfl
      · rename_i hlim
        have hlen : ((List.take (min (tokens.length : Int) cnf.BgBotsLimit).toNat
            tokens).length : Int) ≤ cnf.BgBotsLimit := by
          simp only [List.length_take]
          omega
        have htail : ∀ tr : List Effect, workerCalls tr = [] →
            SetBounded cnf.BgBotsLimit
              (Effect.workerSet
                (List.take (min (tokens.length : Int) cnf.BgBotsLimit).toNat tokens)
                file.ChannelID :: Effect.workerNext file.ChannelID :: tr) := by
          intro tr htr toks ch hm
          rcases List.mem_cons.mp hm with h2 | h2
          · cases h2
            exact hlen
          · exact setBounded_cons _ _ _ (by simp) (setBounded_of_workerCalls_nil _ _ htr)
              toks ch h2
        cases env.workerNext (List.take (min (tokens.length : Int) cnf.BgBotsLimit).toNat tokens)
            file.ChannelID with
        | error e => exact htail _ rfl
        | ok res =>
          obtain ⟨client, index⟩ := res
          simp only [List.cons_append, List.nil_append]
          split
          · exact htail _ rfl
          · exact htail _ (workerCalls_copyStage _ _ _ _ _ _ _ _ _)

theorem rangeStage_setBounded (cnf : StreamConfig) (env : Env) (req : Request)
    (session : UserSession) (file : FileOutFull) :
    SetBounded cnf.BgBotsLimit (rangeStage cnf env req session file) := by
  have hh : ∀ s e, SetBounded cnf.BgBotsLimit (headerStage cnf env req session file s e) := by
    intro s e
    unfold headerStage
    simp only [List.cons_append, List.nil_append]
    exact setBounded_cons _ _ _ (by simp) (setBounded_cons _ _ _ (by simp)
      (setBounded_cons _ _ _ (by simp) (setBounded_cons _ _ _ (by simp)
        (setBounded_cons _ _ _ (by simp) (workerStage_setBounded _ _ _ _ _ _ _ _)))))
  unfold rangeStage
  refine setBounded_cons _ _ _ (by simp) ?_
  split
  · exact setBounded_cons _ _ _ (by simp) (hh _ _)
  · cases env.rangeParse req.rangeHeader file.Size with
    | error e => cases e <;> exact setBounded_of_workerCalls_nil _ _ rfl
    | ok ranges =>
      simp only
      split
      · exact setBounded_of_workerCalls_nil _ _ rfl
      · cases ranges with
        | nil => exact setBounded_of_workerCalls_nil _ _ rfl
        | cons r0 rest =>
          exact setBounded_cons _ _ _ (by simp) (setBounded_cons _ _ _ (by simp) (hh _ _))

theorem GetFileStream_setBounded (cnf : StreamConfig) (env : Env) (req : Request) :
    SetBounded cnf.BgBotsLimit (GetFileStream cnf env req) := by
  unfold GetFileStream
  split
  · exact setBounded_of_workerCalls_nil _ _ rfl
  · cases env.getSessionByHash req.hash with
    | error e => exact setBounded_of_workerCalls_nil _ _ rfl
    | ok session =>
      simp only
      cases env.cacheGet ("files:" ++ req.fileID) with
      | ok file =>
        simp only
        exact setBounded_cons _ _ _ (by simp) (setBounded_cons _ _ _ (by simp)
          (rangeStage_setBounded _ _ _ _ _))
      | error e =>
        simp only
        cases GetFileByID env req.fileID with
        | error appErr => exact setBounded_of_workerCalls_nil _ _ rfl
        | ok file =>
          simp only
          exact setBounded_cons _ _ _ (by simp) (setBounded_cons _ _ _ (by simp)
            (setBounded_cons _ _ _ (by simp) (setBounded_cons _ _ _ (by simp)
              (rangeStage_setBounded _ _ _ _ _))))

/-- C15. When the token lookup of the worker stage of `GetFileStream` returns `tokens` and
`BgBotsLimit ≥ 0`: the only call on the worker pool is `UserWorker` exactly when
`DisableStreamBots` is set or the token list is empty; otherwise the calls are `Set` with the
first `min(len(tokens), BgBotsLimit)` tokens, in their order, on the file's channel, then `Next`
on that channel, and the slice does not panic.  The slice length is within the token list and at
most `BgBotsLimit`, and in no run of the handler is `Set` given more than `BgBotsLimit`
tokens. -/
theorem GetFileStream_worker_choice (cnf : StreamConfig) (env : Env) (req : Request)
    (session : UserSession) (file : FileOutFull) (start end_ contentLength : Int)
    (tokens : List String)
    (ht : env.getBotsToken session.UserId file.ChannelID = Except.ok tokens)
    (hb : 0 ≤ cnf.BgBotsLimit) :
    (cnf.DisableStreamBots = true ∨ tokens.length = 0 →
        workerCalls (workerStage cnf env req session file start end_ contentLength) =
          [Effect.userWorker session.UserId]) ∧
      (¬(cnf.DisableStreamBots = true ∨ tokens.length = 0) →
        workerCalls (workerStage cnf env req session file start end_ contentLength) =
            [Effect.workerSet
                (tokens.take (min (tokens.length : Int) cnf.BgBotsLimit).toNat) file.ChannelID,
              Effect.workerNext file.ChannelID] ∧
          Effect.panic "slice bounds out of range" ∉
            workerStage cnf env req session file start end_ contentLength) ∧
      (min (tokens.length : Int) cnf.BgBotsLimit).toNat ≤ tokens.length ∧
      ((tokens.take (min (tokens.length : Int) cnf.BgBotsLimit).toNat).length : Int) =
        min (tokens.length : Int) cnf.BgBotsLimit ∧
      tokens.take (min (tokens.length : Int) cnf.BgBotsLimit).toNat <+: tokens ∧
      SetBounded cnf.BgBotsLimit (GetFileStream cnf env req) := by
  refine ⟨?_, ?_, by omega, ?_, List.take_prefix _ _, GetFileStream_setBounded cnf env req⟩
  · intro h
    unfold workerStage
    rw [ht]
    simp only
    rw [if_pos h]
    cases env.userWorker session.Session session.UserId with
    | error e => rfl
    | ok client =>
      show Effect.userWorker session.UserId :: workerCalls (copyStage cnf env req file client
        (formatInt session.UserId) start end_ contentLength) = _
      rw [workerCalls_copyStage]
  · intro h
    have hlim : ¬ min (tokens.length : Int) cnf.BgBotsLimit < 0 := by omega
    unfold workerStage
    rw [ht]
    simp only
    rw [if_neg h, if_neg hlim]
    cases env.workerNext (List.take (min (tokens.length : Int) cnf.BgBotsLimit).toNat tokens)
        file.ChannelID with
    | error e => exact ⟨rfl, by simp⟩
    | ok res =>
      obtain ⟨client, index⟩ := res
      simp only [List.cons_append, List.nil_append]
      split
      · exact ⟨rfl, by simp⟩
      · refine ⟨?_, ?_⟩
        · show Effect.workerSet _ _ :: Effect.workerNext _ :: workerCalls (copyStage cnf env req
            file client _ start end_ contentLength) = _
          rw [workerCalls_copyStage]
        · intro hm
          simp only [List.mem_cons, reduceCtorEq, false_or] at hm
          have := copyStage_panic _ _ _ _ _ _ _ _ _ _ hm
          exact absurd this (by decide)
  · simp only [List.length_take]
    omega

/-- Witness for C15: the scenario with three bot tokens and `BgBotsLimit = 5`. -/
theorem GetFileStream_worker_choice_witness :
    (scenarioCnf.DisableStreamBots = true ∨ ["11:aa", "22:bb", "33:cc"].length = 0 →
        workerCalls (workerStage scenarioCnf scenarioEnv (scenarioRequest "f1" "h1" "GET" "")
            ⟨1, "s1"⟩ scenarioFile 0 99 100) =
          [Effect.userWorker (⟨1, "s1"⟩ : UserSession).UserId]) ∧
      (¬(scenarioCnf.DisableStreamBots = true ∨ ["11:aa", "22:bb", "33:cc"].length = 0) →
        workerCalls (workerStage scenarioCnf scenarioEnv (scenarioRequest "f1" "h1" "GET" "")
            ⟨1, "s1"⟩ scenarioFile 0 99 100) =
            [Effect.workerSet
                (["11:aa", "22:bb", "33:cc"].take
                  (min ((["11:aa", "22:bb", "33:cc"] : List String).length : Int)
                    scenarioCnf.BgBotsLimit).toNat) scenarioFile.ChannelID,
              Effect.workerNext scenarioFile.ChannelID] ∧
          Effect.panic "slice bounds out of range" ∉
            workerStage scenarioCnf scenarioEnv (scenarioRequest "f1" "h1" "GET" "")
              ⟨1, "s1"⟩ scenarioFile 0 99 100) ∧
      (min ((["11:aa", "22:bb", "33:cc"] : List String).length : Int)
          scenarioCnf.BgBotsLimit).toNat ≤ ["11:aa", "22:bb", "33:cc"].length ∧
      (((["11:aa", "22:bb", "33:cc"] : List String).take
          (min ((["11:aa", "22:bb", "33:cc"] : List String).length : Int)
            scenarioCnf.BgBotsLimit).toNat).length : Int) =
        min ((["11:aa", "22:bb", "33:cc"] : List String).length : Int)
          scenarioCnf.BgBotsLimit ∧
      (["11:aa", "22:bb", "33:cc"] : List String).take
          (min ((["11:aa", "22:bb", "33:cc"] : List String).length : Int)
            scenarioCnf.BgBotsLimit).toNat <+: ["11:aa", "22:bb", "33:cc"] ∧
      SetBounded scenarioCnf.BgBotsLimit
        (GetFileStream scenarioCnf scenarioEnv (scenarioRequest "f1" "h1" "GET" "")) :=
  GetFileStream_worker_choice scenarioCnf scenarioEnv (scenarioRequest "f1" "h1" "GET" "")
    ⟨1, "s1"⟩ scenarioFile 0 99 100 ["11:aa", "22:bb", "33:cc"] rfl (by decide)

/-! ## Decrypted reader: the loops terminate (C16) -/

/-- C16. On any backend, for every part list, offset and limit: every call of `nextChunk`, from
any state, either returns a negative offset or moves `pos` on by exactly one; the seek loop of
`NewDecryptedReader`, allowed `len(chunks) + 1` iterations (one call of `nextChunk` each),
returns within them, and so does the constructor; in every state reached afterwards by any
number of `Read`s the loop of `Read`, allowed `len(chunks) + 1` iterations, returns within them;
and a call of `nextChunk` that meets a part of size zero moves past it with `io.EOF`, leaving
the held sub-stream and the trace of sub-stream calls as they were. -/
theorem decryptedReader_loops_terminate (B : Backend σ) (offset limit : Int)
    (chunks : List Part) (key : String) (bufs : List Nat) :
    (∀ (r : decrpytedReader σ) (off : Int),
        (nextChunk B r off).1.1 < 0 ∨ (nextChunk B r off).2.pos = r.pos + 1) ∧
      (∃ res, seekLoop B (chunks.length + 1)
        { chunks := chunks, limit := limit, count := 0, pos := 0, reader := none, err := none,
          encryptionKey := key, trace := [] } offset (some GoError.EOF) = Except.ok res) ∧
      (∃ res, NewDecryptedReader B offset limit chunks key = Except.ok res ∧
        match res with
        | Except.error _ => True
        | Except.ok r0 =>
          ∃ r1, readMany B bufs r0 = Except.ok r1 ∧
            ∃ res2, readLoop B (r1.chunks.length + 1) r1 = Except.ok res2) ∧
      (∀ (r : decrpytedReader σ) (off : Int), r.err = none → r.pos < r.chunks.length →
        0 < r.limit → 0 ≤ off → (r.chunks.getD r.pos ⟨0, ""⟩).Size = 0 →
        nextChunk B r off = ((off, some GoError.EOF), { r with pos := r.pos + 1 })) := by
  refine ⟨?_, ?_, ?_, ?_⟩
  · intro r off
    rcases nextChunk_shape B r off with ⟨_, h, _⟩ | ⟨h, _, _, _⟩ | ⟨_, _, h, _⟩ |
      ⟨s, c, i, h, _, _, _, _⟩
    · left; omega
    · right; rw [h]
    · left; omega
    · right; rw [h]
  · obtain ⟨e, r1, h1, _⟩ := seekLoop_sound B (chunks.length + 1)
      { chunks := chunks, limit := limit, count := 0, pos := 0, reader := none, err := none,
        encryptionKey := key, trace := [] } offset (some GoError.EOF)
      ⟨rfl, fun h => by simp at h, Nat.zero_le _⟩ (le_refl 0)
      (by show chunks.length + 1 ≤ chunks.length + 1 + 0; omega)
    exact ⟨_, h1⟩
  · obtain ⟨res, h1, h2⟩ := NewDecryptedReader_sound B offset limit chunks key
    refine ⟨res, h1, ?_⟩
    cases res with
    | error e => trivial
    | ok r0 =>
      obtain ⟨r1, g1, g2⟩ := readMany_sound B bufs r0 (h2 r0 rfl)
      obtain ⟨res2, r2, f1, _⟩ := readLoop_sound B (r1.chunks.length + 1) r1 g2 (by omega)
      exact ⟨r1, g1, _, f1⟩
  · intro r off he hp hl ho hs
    have := nextChunk_skip B r off he hp hl ho (by rw [hs]; exact ho)
    rw [this, hs, sub_zero]

/-! ## Range server: a reader that failed to construct (C17) -/

/-- C17, the code at a failing input: the constructor of the decrypted reader returns an error,
and no reader, when the cipher of the head part cannot be built; and when the constructor
returns a nil reader (encrypted file of size 100, `GET`, no `Range`) the handler reports no error: it passes
the nil reader to the copy of 100 bytes, which panics, and the only status written is the 200
from before. -/
theorem GetFileStream_copies_from_nil_reader :
    NewDecryptedReader (noCipherBackend [[1, 2, 3]]) 0 3 (partsOf [[1, 2, 3]]) "key" =
        Except.ok (Except.error (GoError.other "bad key")) ∧
      bodyCalls (GetFileStream scenarioCnf scenarioEnvNoReader
          (scenarioRequest "f1" "h1" "GET" "")) =
        [Effect.getParts 1 "11", Effect.rangedParts 0 99, Effect.newDecryptedReader 100,
          Effect.copyN true 100] ∧
      (GetFileStream scenarioCnf scenarioEnvNoReader
          (scenarioRequest "f1" "h1" "GET" "")).getLast? = some (Effect.panic "nil reader") ∧
      statusCalls (GetFileStream scenarioCnf scenarioEnvNoReader
          (scenarioRequest "f1" "h1" "GET" "")) = [200] :=
  ⟨rfl, by decide, by decide, by decide⟩

end Teldrive
